import Mathlib

/-!
# vault-to-ssm: a shallow embedding of `vault/vault-to-ssm/main.go`

The program copies every secret of a Vault server into the AWS parameter
store.  The embedding below follows `main.go` function by function.

* A Go `map[string]V` is an association list with pairwise distinct keys
  (`GoMap.WF`).  `range` over a map visits the list in list order; Go leaves
  that order unspecified, and every statement about a function that receives
  a map is made for an arbitrary list, hence for every order.
* The Vault client and the SSM service are external; they are oracles
  (`Client`, `SSM`) answering each request.  `encoding/json.Marshal` is an
  oracle as well (`Client.Marshal`).
* `listRecursive` mutates the map it is given, so the model threads the map
  (and the log of requests sent to Vault) through the walk and returns it even
  when the walk fails.
* `listRecursive` has no recursion bound in the source; the model takes a
  fuel argument and answers `Res.diverge` when it runs out.
-/

namespace VaultToSsm

/-! ## Go maps -/

/-- A Go `map[string]V`: the entries, in the order `range` visits them. -/
abbrev GoMap (V : Type) := List (String × V)

namespace GoMap

variable {V : Type}

/-- The keys of a map, in `range` order. -/
def keys (m : GoMap V) : List String := m.map Prod.fst

/-- Well-formed maps have pairwise distinct keys. -/
def WF (m : GoMap V) : Prop := (keys m).Nodup

instance (m : GoMap V) : Decidable (WF m) :=
  inferInstanceAs (Decidable (List.Nodup (keys m)))

/-- The lookup `m[k]` with the presence flag: `none` when `k` is not a key. -/
def get? : GoMap V → String → Option V
  | [], _ => none
  | (k', v) :: t, k => if k' = k then some v else get? t k

/-- The assignment `m[k] = v`: overwrite the entry of `k`, or add one. -/
def set : GoMap V → String → V → GoMap V
  | [], k, v => [(k, v)]
  | (k', v') :: t, k, v => if k' = k then (k, v) :: t else (k', v') :: set t k v

end GoMap

/-! ## Outcomes -/

/-- How a Go function of this program can end other than by a normal return:
a returned `error`, a `panic`, a `log.Fatalf` exit, or (model only) fuel
exhaustion. -/
inductive Fail where
  | err (e : String)
  | panic (e : String)
  | fatal (msg : String)
  | diverge
  deriving DecidableEq, Repr

deriving instance DecidableEq for Except

/-- The outcome of a call: `.ok a` for a normal return, `.error f` otherwise. -/
abbrev Res (α : Type) := Except Fail α

/-! ## Values of the Vault API -/

/-- A decoded JSON value, as stored in a `map[string]interface{}`.
`null` is the nil interface. -/
inductive JVal where
  | null
  | str (s : String)
  | num (n : Int)
  | bool (b : Bool)
  | arr (items : List JVal)
  | obj (fields : List (String × JVal))

/-- The part of `api.KVSecret` the program reads: `Data`, which may be the nil map. -/
structure KVSecret where
  Data : Option (GoMap JVal)

/-- The part of `api.MountOutput` the program reads (`Type_` is the field `Type`). -/
structure MountOutput where
  Type_ : String
  Options : GoMap String

/-- A request sent to Vault. -/
inductive Call where
  | list (urlPath : String)
  | getV1 (mount : String) (path : String)
  | getV2 (mount : String) (path : String)
  deriving DecidableEq, Repr

/-- The Vault client (and the JSON encoder), as oracles.
`RawList u` is `client.RawRequest` of a `LIST` request with URL path `u`
followed by `DecodeJSON`, giving `result.Data.Keys`;
`KVv1Get m p` is `client.KVv1(m).Get(ctx, p)`, `KVv2Get` likewise, the result
being the `*api.KVSecret` (`none` for the nil pointer) or the error. -/
structure Client where
  ListMounts : Except String (GoMap MountOutput)
  RawList : String → Except String (List String)
  KVv1Get : String → String → Except String (Option KVSecret)
  KVv2Get : String → String → Except String (Option KVSecret)
  Marshal : GoMap JVal → Except String String

/-! ## `GetMounts` (lines 151-185) -/

/-- The body of the loop of `GetMounts` (lines 162-177), on the map variable
`mounts`; `none` is the nil map, which `make` never returns. -/
def GetMounts.step (mounts : Option (GoMap String)) (entry : String × MountOutput) :
    Option (GoMap String) :=
  let mount := entry.1
  let metadata := entry.2
  if metadata.Type_ ≠ "generic" ∧ metadata.Type_ ≠ "kv" then
    mounts
  else
    let EngineType :=
      if metadata.Type_ = "generic" then "kv1"
      else if (metadata.Options.get? "version").getD "" = "1" then "kv1"
      else "kv2"
    mounts.map (fun m => m.set mount EngineType)

/-- `GetMounts`: `log.Fatalf` when `ListMounts` fails, otherwise the loop over
the mounts, then `log.Fatalf` when the map variable is nil. -/
def GetMounts (client : Client) : Res (GoMap String) :=
  match client.ListMounts with
  | .error e => .error (.fatal e)
  | .ok secret =>
    let mounts : Option (GoMap String) := secret.foldl GetMounts.step (some [])
    match mounts with
    | none => .error (.fatal "No mounts found or your token has no access.")
    | some m => .ok m

/-! ## `mergeMap` (lines 208-212) -/

/-- `mergeMap`: assign every entry of `source` into `destination`. -/
def mergeMap (source : GoMap String) (destination : GoMap String) : GoMap String :=
  source.foldl (fun d e => d.set e.1 e.2) destination

/-! ## `writeToParamStore` (lines 214-231) -/

/-- The fields of `ssm.PutParameterInput` the program sets (`Type_` is the field `Type`). -/
structure PutParameterInput where
  Name : String
  Value : String
  Type_ : String
  deriving DecidableEq, Repr

/-- The SSM service: `svc.PutParameter`, `none` for a nil error. -/
structure SSM where
  PutParameter : PutParameterInput → Option String

/-- What `writeToParamStore` has done: the writes sent, and the lines printed. -/
structure Published where
  puts : List PutParameterInput
  out : List String
  deriving DecidableEq, Repr

/-- `writeToParamStore`: one `PutParameter` per entry; the error, if any, is
printed, and then the success line is printed. -/
def writeToParamStore (svc : SSM) : GoMap String → Published → Published
  | [], acc => acc
  | (key, value) :: rest, acc =>
    let input : PutParameterInput := { Name := "/" ++ key, Value := value, Type_ := "String" }
    let err := svc.PutParameter input
    let out1 := match err with
      | some e => acc.out ++ [e ++ "\n"]
      | none => acc.out
    let out2 := out1 ++ ["Parameter \x27" ++ key ++ "\x27 created successfully.\n"]
    writeToParamStore svc rest { puts := acc.puts ++ [input], out := out2 }

/-! ## `readSecret` (lines 187-206) -/

/-- The first `/`-separated segment of `path`, and what follows the first `/`
(`none` when `path` has no `/`): `strings.SplitN(path, "/", 2)`. -/
def cut (path : String) : String × Option String :=
  match path.data.span (fun ch => ch != '/') with
  | (a, []) => (String.mk a, none)
  | (a, _ :: b) => (String.mk a, some (String.mk b))

/-- `readSecret`, with the log of requests: `kv1` reads `paths[1]` from the
mount `paths[0]` (a panic when `path` has no `/`), `kv2` reads the whole
`path` from the mount `strings.Split(path, "/")[0]`. -/
def readSecret (client : Client) (path : String) (backendType : String) (calls : List Call) :
    Res (Option KVSecret) × List Call :=
  if backendType = "kv1" then
    match (cut path).2 with
    | none => (.error (.panic "index out of range [1] with length 1"), calls)
    | some rest =>
      match client.KVv1Get (cut path).1 rest with
      | .error e => (.error (.err e), calls ++ [Call.getV1 (cut path).1 rest])
      | .ok secret => (.ok secret, calls ++ [Call.getV1 (cut path).1 rest])
  else if backendType = "kv2" then
    let mountPath := (cut path).1
    match client.KVv2Get mountPath path with
    | .error e => (.error (.err e), calls ++ [Call.getV2 mountPath path])
    | .ok secret => (.ok secret, calls ++ [Call.getV2 mountPath path])
  else
    (.error (.err ("unknown backend type " ++ backendType ++ " for path " ++ path)), calls)

/-! ## `listRecursive` (lines 78-149) -/

/-- The test `v != nil` on an interface value. -/
def JVal.notNil : JVal → Bool
  | .null => false
  | _ => true

/-- The type assertion `v.(string)`: `none` when `ok` is false. -/
def JVal.asString : JVal → Option String
  | .str s => some s
  | _ => none

/-- The state a walk threads: the map `KVData` it fills, and the requests sent. -/
structure Walk where
  KVData : GoMap String
  calls : List Call

/-- Lines 125-144: what `listRecursive` does with the secret read at `subPath`. -/
def listRecursive.store (client : Client) (subPath : String) (secret : Option KVSecret)
    (KVData : GoMap String) : Res Unit × GoMap String :=
  match secret with
  | none => (.ok (), KVData)
  | some sec =>
    match sec.Data with
    | none => (.ok (), KVData)
    | some data =>
      let field := (data.get? "value").getD JVal.null
      if field.notNil then
        match field.asString with
        | some value => (.ok (), KVData.set subPath value)
        | none => (.ok (), KVData)
      else
        match client.Marshal data with
        | .error e => (.error (.err e), KVData)
        | .ok value => (.ok (), KVData.set subPath value)

/-- Lines 112-146: the loop over the listed keys; `recurse` is the recursive
call of `listRecursive` with the same client and backend type. -/
def listRecursive.loop (recurse : String → Walk → Res Unit × Walk) (client : Client)
    (path : String) (backendType : String) : List String → Walk → Res Unit × Walk
  | [], w => (.ok (), w)
  | key :: rest, w =>
    let subPath := path ++ key
    match key.data.getLast? with
    | none => (.error (.panic "index out of range [-1]"), w)
    | some ch =>
      if ch = '/' then
        match recurse subPath w with
        | (.error f, w1) => (.error f, w1)
        | (.ok _, w1) => listRecursive.loop recurse client path backendType rest w1
      else
        match readSecret client subPath backendType w.calls with
        | (.error f, calls) => (.error f, { KVData := w.KVData, calls := calls })
        | (.ok secret, calls) =>
          match listRecursive.store client subPath secret w.KVData with
          | (.error f, kv) => (.error f, { KVData := kv, calls := calls })
          | (.ok _, kv) =>
            listRecursive.loop recurse client path backendType rest { KVData := kv, calls := calls }

/-- The URL path of the list request (lines 83-91), `none` for an unknown
backend type. -/
def listRecursive.url (path : String) (backendType : String) : Option String :=
  if backendType = "kv1" then some ("/v1/" ++ path)
  else if backendType = "kv2" then some ("/v1/" ++ path ++ "/data?list=true")
  else none

/-- `listRecursive`; `fuel` bounds the depth of nested calls. -/
def listRecursive (client : Client) : Nat → String → String → Walk → Res Unit × Walk
  | 0, _, _, w => (.error .diverge, w)
  | fuel + 1, path, backendType, w =>
    match listRecursive.url path backendType with
    | none =>
      (.error (.err ("unknown backend type " ++ backendType ++ " for path " ++ path)), w)
    | some u =>
      match client.RawList u with
      | .error e => (.error (.err e), { KVData := w.KVData, calls := w.calls ++ [Call.list u] })
      | .ok keys =>
        listRecursive.loop (fun sub w1 => listRecursive client fuel sub backendType w1)
          client path backendType keys { KVData := w.KVData, calls := w.calls ++ [Call.list u] }

/-! ## `main` (lines 35-76) -/

/-- What a run has done when it ends. -/
structure Run where
  outcome : Res Unit
  SSMData : GoMap String
  calls : List Call
  published : Published

/-- Lines 63-73: the loop over the mounts.  A walk that returns an error
panics, before `mergeMap`. -/
def main.loop (client : Client) (fuel : Nat) :
    GoMap String → GoMap String → List Call → Res Unit × GoMap String × List Call
  | [], SSMData, calls => (.ok (), SSMData, calls)
  | (path, backendType) :: rest, SSMData, calls =>
    let MountData : GoMap String := []
    let mountPath := path ++ "/"
    match listRecursive client fuel mountPath backendType { KVData := MountData, calls := calls } with
    | (.error (.err e), w) => (.error (.panic e), SSMData, w.calls)
    | (.error f, w) => (.error f, SSMData, w.calls)
    | (.ok _, w) => main.loop client fuel rest (mergeMap w.KVData SSMData) w.calls

/-- `main`, from the Vault client on (building the client and the AWS session
is outside the model); `fuel` is the recursion bound given to each walk. -/
def main (client : Client) (svc : SSM) (fuel : Nat) : Run :=
  let SSMData : GoMap String := []
  match GetMounts client with
  | .error f => { outcome := .error f, SSMData := SSMData, calls := [], published := ⟨[], []⟩ }
  | .ok mounts =>
    match main.loop client fuel mounts SSMData [] with
    | (.error f, data, calls) =>
      { outcome := .error f, SSMData := data, calls := calls, published := ⟨[], []⟩ }
    | (.ok _, data, calls) =>
      { outcome := .ok (), SSMData := data, calls := calls,
        published := writeToParamStore svc data ⟨[], []⟩ }

/-! ## Listing trees

The shape the claims about the walk speak of: what the server holds under a
path, as a finite tree. -/

/-- The children listed at a path, in listing order, each a leaf holding a
payload `data` whose flat value is `value`, or a folder with its own listing. -/
inductive Listing where
  | done
  | leaf (name : String) (data : GoMap JVal) (value : String) (rest : Listing)
  | dir (name : String) (kids : Listing) (rest : Listing)

namespace Listing

/-- The child names, as the list request returns them. -/
def names : Listing → List String
  | done => []
  | leaf n _ _ rest => n :: names rest
  | dir n _ rest => n :: names rest

/-- The nesting depth of folders. -/
def depth : Listing → Nat
  | done => 0
  | leaf _ _ _ rest => depth rest
  | dir _ kids rest => max (depth kids + 1) (depth rest)

/-- The leaves below `path`, in walk order: full path (`path` followed by the
child names leading to the leaf) and flat value. -/
def entries : String → Listing → GoMap String
  | _, done => []
  | p, leaf n _ v rest => (p ++ n, v) :: entries p rest
  | p, dir n kids rest => entries (p ++ n) kids ++ entries p rest

/-- The leaves of a listing: sub-path below the listed path, and flat value. -/
def leaves : Listing → GoMap String
  | done => []
  | leaf n _ v rest => (n, v) :: leaves rest
  | dir n kids rest => (leaves kids).map (fun e => (n ++ e.1, e.2)) ++ leaves rest

end Listing

/-- The payload `data` yields the flat value `v`: its `value` field is the
string `v`, or it has no (or a nil) `value` field and serializes to `v`. -/
def YieldsFlat (client : Client) (data : GoMap JVal) (v : String) : Prop :=
  data.get? "value" = some (JVal.str v) ∨
    ((data.get? "value" = none ∨ data.get? "value" = some JVal.null) ∧
      client.Marshal data = .ok v)

/-- The client answers below `path` as the listing says: a leaf name is
non-empty, does not end in `/`, and its read succeeds with the payload; a
folder name ends in `/` and its list request succeeds with the names of its
listing. -/
def Serves (client : Client) (backendType : String) : String → Listing → Prop
  | _, .done => True
  | p, .leaf n d v rest =>
    (∃ ch, n.data.getLast? = some ch ∧ ch ≠ '/') ∧
    (readSecret client (p ++ n) backendType []).1 = .ok (some { Data := some d }) ∧
    YieldsFlat client d v ∧ Serves client backendType p rest
  | p, .dir n kids rest =>
    n.data.getLast? = some '/' ∧
    (∃ u, listRecursive.url (p ++ n) backendType = some u ∧
      client.RawList u = .ok kids.names) ∧
    Serves client backendType (p ++ n) kids ∧ Serves client backendType p rest

/-- The client holds the listing `t` at `path`: the list request at `path`
succeeds with the names of `t`, and the client serves `t` below `path`. -/
def Hosts (client : Client) (backendType : String) (path : String) (t : Listing) : Prop :=
  (∃ u, listRecursive.url path backendType = some u ∧ client.RawList u = .ok t.names) ∧
    Serves client backendType path t

/-! ## Concrete servers -/

/-- Scenario A, the mount reported as `secret/`: one `kv` mount of version 1
holding the leaf `app/db` with payload `value = pw123`, reachable through the
paths the walk asks for. -/
def scenarioA : Client where
  ListMounts := .ok [("secret/", { Type_ := "kv", Options := [("version", "1")] })]
  RawList := fun u =>
    if u = "/v1/secret//" then .ok ["app/"]
    else if u = "/v1/secret//app/" then .ok ["db"]
    else .error "404"
  KVv1Get := fun m p =>
    if m = "secret" ∧ p = "/app/db" then .ok (some { Data := some [("value", JVal.str "pw123")] })
    else .error "404"
  KVv2Get := fun _ _ => .error "404"
  Marshal := fun _ => .error "unused"

/-- An SSM service that accepts every write. -/
def acceptAll : SSM where
  PutParameter := fun _ => none

/-- The variant the classifier is to give a mount: `kv1` for kind `generic`
and for kind `kv` with version option `"1"`, `kv2` for any other `kv` mount,
none for any other kind. -/
def specVariant (metadata : MountOutput) : Option String :=
  if metadata.Type_ = "generic" then some "kv1"
  else if metadata.Type_ = "kv" then
    (if metadata.Options.get? "version" = some "1" then some "kv1" else some "kv2")
  else none

/-- The error the server answers a request with, `none` when it succeeds. -/
def Client.fails (client : Client) : Call → Option String
  | .list u =>
    match client.RawList u with
    | .error e => some e
    | .ok _ => none
  | .getV1 m p =>
    match client.KVv1Get m p with
    | .error e => some e
    | .ok _ => none
  | .getV2 m p =>
    match client.KVv2Get m p with
    | .error e => some e
    | .ok _ => none

/-- A server that answers no request, reporting the mounts `mounts`. -/
def silent (mounts : GoMap MountOutput) : Client where
  ListMounts := .ok mounts
  RawList := fun _ => .error "404"
  KVv1Get := fun _ _ => .error "404"
  KVv2Get := fun _ _ => .error "404"
  Marshal := fun _ => .error "unused"

/-- Scenario A with the mount reported as `secret`, without a trailing `/`. -/
def scenarioAPlain : Client where
  ListMounts := .ok [("secret", { Type_ := "kv", Options := [("version", "1")] })]
  RawList := fun u =>
    if u = "/v1/secret/" then .ok ["app/"]
    else if u = "/v1/secret/app/" then .ok ["db"]
    else .error "404"
  KVv1Get := fun m p =>
    if m = "secret" ∧ p = "app/db" then .ok (some { Data := some [("value", JVal.str "pw123")] })
    else .error "404"
  KVv2Get := fun _ _ => .error "404"
  Marshal := fun _ => .error "unused"

/-- The listing of `scenarioAPlain` under `secret/`. -/
def treeA : Listing :=
  .dir "app/" (.leaf "db" [("value", JVal.str "pw123")] "pw123" .done) .done

/-- A `kv` version 2 mount `kv` whose only leaf `config` holds the payload
`value = 42, host = "x"`; the encoder would serialize it. -/
def numericValue : Client where
  ListMounts := .ok [("kv", { Type_ := "kv", Options := [("version", "2")] })]
  RawList := fun u => if u = "/v1/kv//data?list=true" then .ok ["config"] else .error "404"
  KVv1Get := fun _ _ => .error "404"
  KVv2Get := fun m p =>
    if m = "kv" ∧ p = "kv/config" then
      .ok (some { Data := some [("value", JVal.num 42), ("host", JVal.str "x")] })
    else .error "404"
  Marshal := fun _ => .ok "\x7b\"host\":\"x\",\"value\":42\x7d"

/-- Scenario C: under `kv/sub/` the server lists `leaf1` and `nested/`, and
under `kv/sub/nested/` the leaf `deep`; `leaf1` holds `value = one`, `deep`
holds `host = x`, which the encoder serializes. -/
def scenarioC : Client where
  ListMounts := .ok [("kv", { Type_ := "kv", Options := [] })]
  RawList := fun u =>
    if u = "/v1/kv/sub//data?list=true" then .ok ["leaf1", "nested/"]
    else if u = "/v1/kv/sub/nested//data?list=true" then .ok ["deep"]
    else .error "404"
  KVv1Get := fun _ _ => .error "404"
  KVv2Get := fun m p =>
    if m = "kv" ∧ p = "kv/sub/leaf1" then .ok (some { Data := some [("value", JVal.str "one")] })
    else if m = "kv" ∧ p = "kv/sub/nested/deep" then
      .ok (some { Data := some [("host", JVal.str "x")] })
    else .error "404"
  Marshal := fun _ => .ok "\x7b\"host\":\"x\"\x7d"

/-- The listing of `scenarioC` under `kv/sub/`. -/
def treeC : Listing :=
  .leaf "leaf1" [("value", JVal.str "one")] "one"
    (.dir "nested/" (.leaf "deep" [("host", JVal.str "x")] "\x7b\"host\":\"x\"\x7d" .done) .done)

/-- Scenario D: two `kv` version 1 mounts; the walk of `good` succeeds with
one leaf, the walk of `bad` reads the leaf `a` and then fails to list `b/`. -/
def scenarioD : Client where
  ListMounts := .ok [("good", { Type_ := "generic", Options := [] }),
    ("bad", { Type_ := "generic", Options := [] })]
  RawList := fun u =>
    if u = "/v1/good/" then .ok ["k"]
    else if u = "/v1/bad/" then .ok ["a", "b/", "c"]
    else .error "TransportError"
  KVv1Get := fun m p =>
    if m = "good" ∧ p = "k" then .ok (some { Data := some [("value", JVal.str "v")] })
    else if m = "bad" ∧ p = "a" then .ok (some { Data := some [("value", JVal.str "partial")] })
    else if m = "bad" ∧ p = "c" then .ok (some { Data := some [("value", JVal.str "never")] })
    else .error "404"
  KVv2Get := fun _ _ => .error "404"
  Marshal := fun _ => .error "unused"

/-- Scenario E: an SSM service that rejects the write of `/a/b` only. -/
def scenarioE : SSM where
  PutParameter := fun input => if input.Name = "/a/b" then some "AccessDenied" else none

/-- Five mounts: one `generic`, three `kv` (version 1, version 2, no version)
and one `system`. -/
def fiveMounts : GoMap MountOutput :=
  [("secret/", { Type_ := "generic", Options := [("version", "2")] }),
   ("old/", { Type_ := "kv", Options := [("version", "1")] }),
   ("new/", { Type_ := "kv", Options := [("version", "2")] }),
   ("plain/", { Type_ := "kv", Options := [] }),
   ("sys/", { Type_ := "system", Options := [] })]

/-- Every request of `l` is answered without error. -/
def AllGood (client : Client) (l : List Call) : Prop :=
  ∀ c, c ∈ l → client.fails c = none

/-- The requests `new` sent by a call ending in `r` are traced: either all of
them succeeded, or all but the last succeeded, the last one failed with some
error `e`, and the call ended in the failure `mk e`. -/
def Traced {α : Type} (client : Client) (mk : String → Fail) (new : List Call) (r : Res α) :
    Prop :=
  AllGood client new ∨
    ∃ init last e, new = init ++ [last] ∧ AllGood client init ∧
      client.fails last = some e ∧ r = .error (mk e)

/-- Below `path` the server shows a leaf at sub-path `s` whose payload has the
string `v` in its `value` field: either the listing of `path` names the leaf
`s` itself (a non-empty name not ending in `/`) and the read of `path ++ s`
gives such a payload, or the listing names a folder `n` (a name ending in
`/`) and the leaf is at sub-path `s1` below `path ++ n`, with `s = n ++ s1`. -/
inductive LeafAt (client : Client) (backendType : String) : String → String → String → Prop
  | leaf (path n v u : String) (keys : List String) (d : GoMap JVal) (ch : Char) :
      listRecursive.url path backendType = some u → client.RawList u = .ok keys → n ∈ keys →
      n.data.getLast? = some ch → ch ≠ '/' →
      (readSecret client (path ++ n) backendType []).1 = .ok (some { Data := some d }) →
      d.get? "value" = some (JVal.str v) →
      LeafAt client backendType path n v
  | folder (path n s v u : String) (keys : List String) :
      listRecursive.url path backendType = some u → client.RawList u = .ok keys → n ∈ keys →
      n.data.getLast? = some '/' →
      LeafAt client backendType (path ++ n) s v →
      LeafAt client backendType path (n ++ s) v

/-- A `generic` mount `m` with two leaves: `a` holds `value = "x"`, `b` holds
`value = 42`, which the walk reads and does not store. -/
def mixed : Client where
  ListMounts := .ok [("m", { Type_ := "generic", Options := [] })]
  RawList := fun u => if u = "/v1/m/" then .ok ["a", "b"] else .error "404"
  KVv1Get := fun m p =>
    if m = "m" ∧ p = "a" then .ok (some { Data := some [("value", JVal.str "x")] })
    else if m = "m" ∧ p = "b" then .ok (some { Data := some [("value", JVal.num 42)] })
    else .error "404"
  KVv2Get := fun _ _ => .error "404"
  Marshal := fun _ => .error "unused"

/-! ## Lemmas on Go maps -/

namespace GoMap
variable {V : Type}

theorem get?_set (m : GoMap V) (k k2 : String) (v : V) :
    (m.set k v).get? k2 = if k = k2 then some v else m.get? k2 := by
  induction m with
  | nil => simp [set, get?]
  | cons hd t ih =>
    obtain ⟨k1, v1⟩ := hd
    by_cases h1 : k1 = k
    · subst h1
      by_cases h2 : k1 = k2 <;> simp [set, get?, h2]
    · by_cases h2 : k1 = k2
      · subst h2
        simp [set, get?, h1, Ne.symm h1]
      · simp [set, get?, h1, h2, ih]

theorem keys_set (m : GoMap V) (k : String) (v : V) :
    (m.set k v).keys = if k ∈ m.keys then m.keys else m.keys ++ [k] := by
  induction m with
  | nil => simp [set, keys]
  | cons hd t ih =>
    obtain ⟨k1, v1⟩ := hd
    by_cases h1 : k1 = k
    · subst h1
      simp [set, keys]
    · have ih2 := ih
      simp only [keys] at ih2
      by_cases hm : k ∈ List.map Prod.fst t
      · simp [set, keys, h1, Ne.symm h1, hm, ih2]
      · simp [set, keys, h1, Ne.symm h1, hm, ih2]

theorem mem_keys_set (m : GoMap V) (k k2 : String) (v : V) :
    k2 ∈ (m.set k v).keys ↔ k2 = k ∨ k2 ∈ m.keys := by
  rw [keys_set]
  by_cases hm : k ∈ m.keys
  · simp only [hm, if_true]
    constructor
    · exact Or.inr
    · rintro (h | h)
      · exact h ▸ hm
      · exact h
  · simp only [hm, if_false, List.mem_append, List.mem_singleton]
    tauto

theorem WF_set (m : GoMap V) (k : String) (v : V) (h : m.WF) : (m.set k v).WF := by
  unfold WF at *
  rw [keys_set]
  by_cases hm : k ∈ m.keys
  · simpa [hm] using h
  · simp only [hm, if_false]
    exact List.Nodup.append h (List.nodup_singleton k) (by simpa using hm)

theorem set_of_not_mem (m : GoMap V) (k : String) (v : V) (h : k ∉ m.keys) :
    m.set k v = m ++ [(k, v)] := by
  induction m with
  | nil => rfl
  | cons hd t ih =>
    obtain ⟨k1, v1⟩ := hd
    simp only [keys, List.map_cons, List.mem_cons, not_or] at h
    have h1 : ¬ k1 = k := fun e => h.1 e.symm
    simp [set, h1, ih h.2]

theorem get?_eq_none (m : GoMap V) (k : String) : m.get? k = none ↔ k ∉ m.keys := by
  induction m with
  | nil => simp [get?, keys]
  | cons hd t ih =>
    obtain ⟨k1, v1⟩ := hd
    by_cases h1 : k1 = k
    · simp [get?, keys, h1]
    · simp only [keys] at ih
      simp [get?, keys, h1, Ne.symm h1, ih]

theorem get?_of_mem (m : GoMap V) (h : m.WF) (k : String) (v : V) (hm : (k, v) ∈ m) :
    m.get? k = some v := by
  induction m with
  | nil => simp at hm
  | cons hd t ih =>
    obtain ⟨k1, v1⟩ := hd
    simp only [WF, keys, List.map_cons, List.nodup_cons] at h
    rcases List.mem_cons.1 hm with e | e
    · cases e
      simp [get?]
    · have hne : ¬ k1 = k := by
        rintro rfl
        exact h.1 (List.mem_map_of_mem Prod.fst e)
      simp only [get?, hne, if_false]
      exact ih h.2 e

theorem mem_of_get? (m : GoMap V) (k : String) (v : V) (h : m.get? k = some v) : (k, v) ∈ m := by
  induction m with
  | nil => simp [get?] at h
  | cons hd t ih =>
    obtain ⟨k1, v1⟩ := hd
    by_cases h1 : k1 = k
    · simp only [get?, h1, if_true, Option.some.injEq] at h
      simp [h1, h]
    · simp only [get?, h1, if_false] at h
      exact List.mem_cons_of_mem _ (ih h)

end GoMap

/-! ## Lemmas on `mergeMap` -/

theorem mergeMap_nil (d : GoMap String) : mergeMap [] d = d := rfl

theorem mergeMap_cons (e : String × String) (s d : GoMap String) :
    mergeMap (e :: s) d = mergeMap s (d.set e.1 e.2) := rfl

theorem mergeMap_append (s1 s2 d : GoMap String) :
    mergeMap (s1 ++ s2) d = mergeMap s2 (mergeMap s1 d) := by
  simp [mergeMap, List.foldl_append]

/-- After a merge, a key reads what the last entry of `source` with that key
holds, and what `destination` held when `source` has no such entry. -/
theorem get?_mergeMap (s d : GoMap String) (k : String) :
    (mergeMap s d).get? k =
      match GoMap.get? s.reverse k with
      | some v => some v
      | none => d.get? k := by
  induction s using List.reverseRecOn generalizing d with
  | nil => simp [mergeMap, GoMap.get?]
  | append_singleton l e ih =>
    obtain ⟨k1, v1⟩ := e
    rw [mergeMap_append, mergeMap_cons, mergeMap_nil, GoMap.get?_set, List.reverse_append]
    simp only [List.reverse_cons, List.reverse_nil, List.nil_append, List.singleton_append,
      GoMap.get?]
    by_cases h : k1 = k
    · simp [h]
    · simp only [h, if_false]
      exact ih d

theorem mem_keys_mergeMap (s d : GoMap String) (k : String) :
    k ∈ (mergeMap s d).keys ↔ k ∈ s.keys ∨ k ∈ d.keys := by
  induction s generalizing d with
  | nil => simp [mergeMap, GoMap.keys]
  | cons e t ih =>
    rw [mergeMap_cons, ih, GoMap.mem_keys_set]
    simp only [GoMap.keys, List.map_cons, List.mem_cons]
    tauto

theorem WF_mergeMap (s d : GoMap String) (h : d.WF) : (mergeMap s d).WF := by
  induction s generalizing d with
  | nil => exact h
  | cons e t ih =>
    rw [mergeMap_cons]
    exact ih _ (GoMap.WF_set d e.1 e.2 h)

theorem get?_reverse (m : GoMap String) (h : m.WF) (k : String) :
    GoMap.get? m.reverse k = m.get? k := by
  have hr : GoMap.WF m.reverse := by
    unfold GoMap.WF GoMap.keys at *
    rw [List.map_reverse]
    exact List.nodup_reverse.2 h
  cases hg : m.get? k with
  | none =>
    rw [GoMap.get?_eq_none] at hg ⊢
    simpa [GoMap.keys] using hg
  | some v =>
    apply GoMap.get?_of_mem _ hr
    exact List.mem_reverse.2 (GoMap.mem_of_get? m k v hg)

theorem mergeMap_disjoint (s d : GoMap String) (hs : s.WF)
    (hd : ∀ k, k ∈ s.keys → k ∉ d.keys) : mergeMap s d = d ++ s := by
  induction s generalizing d with
  | nil => simp [mergeMap]
  | cons e t ih =>
    obtain ⟨k1, v1⟩ := e
    simp only [GoMap.WF, GoMap.keys, List.map_cons, List.nodup_cons] at hs
    rw [mergeMap_cons, GoMap.set_of_not_mem d k1 v1 (hd k1 (by simp [GoMap.keys]))]
    rw [ih (d ++ [(k1, v1)]) hs.2]
    · simp
    · intro k hk
      simp only [GoMap.keys, List.map_append, List.map_cons, List.map_nil, List.mem_append,
        List.mem_singleton, not_or]
      refine ⟨hd k (by simp only [GoMap.keys, List.map_cons, List.mem_cons]; exact Or.inr hk), ?_⟩
      rintro rfl
      exact hs.1 hk


/-! ## `GetMounts` -/

theorem GetMounts.step_some (acc : GoMap String) (e : String × MountOutput) :
    GetMounts.step (some acc) e =
      some (match specVariant e.2 with
        | some bt => acc.set e.1 bt
        | none => acc) := by
  obtain ⟨k, md⟩ := e
  unfold GetMounts.step specVariant
  by_cases h1 : md.Type_ = "generic"
  · simp [h1]
  · by_cases h2 : md.Type_ = "kv"
    · cases hv : md.Options.get? "version" with
      | none => simp [h2, hv]
      | some ver =>
        by_cases h3 : ver = "1" <;> simp [h2, hv, h3]
    · simp [h1, h2]

theorem GetMounts.fold_spec (secret : GoMap MountOutput) (hwf : secret.WF) (acc : GoMap String)
    (hacc : acc.WF) :
    ∃ m, secret.foldl GetMounts.step (some acc) = some m ∧ m.WF ∧
      ∀ k, m.get? k =
        match (secret.get? k).bind specVariant with
        | some bt => some bt
        | none => acc.get? k := by
  induction secret generalizing acc with
  | nil => exact ⟨acc, rfl, hacc, fun k => by simp [GoMap.get?]⟩
  | cons e t ih =>
    obtain ⟨k0, md0⟩ := e
    simp only [GoMap.WF, GoMap.keys, List.map_cons, List.nodup_cons] at hwf
    rw [List.foldl_cons, GetMounts.step_some]
    have hnone : GoMap.get? t k0 = none := (GoMap.get?_eq_none t k0).2 hwf.1
    cases hs : specVariant md0 with
    | none =>
      obtain ⟨m, hm, hmwf, hget⟩ := ih hwf.2 acc hacc
      refine ⟨m, by simpa [hs] using hm, hmwf, fun k => ?_⟩
      rw [hget k]
      by_cases hk : k0 = k
      · subst hk
        simp [GoMap.get?, hnone, hs]
      · simp [GoMap.get?, hk]
    | some bt =>
      obtain ⟨m, hm, hmwf, hget⟩ := ih hwf.2 (acc.set k0 bt) (GoMap.WF_set acc k0 bt hacc)
      refine ⟨m, by simpa [hs] using hm, hmwf, fun k => ?_⟩
      rw [hget k, GoMap.get?_set]
      by_cases hk : k0 = k
      · subst hk
        simp [GoMap.get?, hnone, hs]
      · simp [GoMap.get?, hk]

theorem GoMap.mem_keys_iff_get? {V : Type} (m : GoMap V) (k : String) :
    k ∈ m.keys ↔ ∃ v, m.get? k = some v := by
  rw [← not_iff_not, ← GoMap.get?_eq_none]
  cases m.get? k <;> simp

/-- C3: when `ListMounts` succeeds, `GetMounts` returns a map whose keys are
exactly the mounts of kind `generic` or `kv`, each mapped to `kv1` for kind
`generic` (whatever the options) or kind `kv` with version option `"1"`, and
to `kv2` for a `kv` mount with another version value or none. -/
theorem GetMounts_classifies (client : Client) (secret : GoMap MountOutput)
    (hlist : client.ListMounts = .ok secret) (hwf : secret.WF) :
    ∃ mounts, GetMounts client = .ok mounts ∧ mounts.WF ∧
      (∀ mount, mount ∈ mounts.keys ↔
        ∃ metadata, (mount, metadata) ∈ secret ∧
          (metadata.Type_ = "generic" ∨ metadata.Type_ = "kv")) ∧
      (∀ mount metadata, (mount, metadata) ∈ secret →
        (metadata.Type_ = "generic" → mounts.get? mount = some "kv1") ∧
        (metadata.Type_ = "kv" → metadata.Options.get? "version" = some "1" →
          mounts.get? mount = some "kv1") ∧
        (metadata.Type_ = "kv" → metadata.Options.get? "version" ≠ some "1" →
          mounts.get? mount = some "kv2") ∧
        (metadata.Type_ ≠ "generic" → metadata.Type_ ≠ "kv" → mounts.get? mount = none)) := by
  obtain ⟨m, hm, hmwf, hget⟩ := GetMounts.fold_spec secret hwf [] (by simp [GoMap.WF, GoMap.keys])
  have hget2 : ∀ k, m.get? k = (secret.get? k).bind specVariant := by
    intro k
    rw [hget k]
    cases (secret.get? k).bind specVariant <;> simp [GoMap.get?]
  refine ⟨m, by simp [GetMounts, hlist, hm], hmwf, fun mount => ?_, fun mount md hmem => ?_⟩
  · rw [GoMap.mem_keys_iff_get?]
    constructor
    · rintro ⟨v, hv⟩
      rw [hget2] at hv
      cases hs : secret.get? mount with
      | none => simp [hs] at hv
      | some md =>
        refine ⟨md, GoMap.mem_of_get? secret mount md hs, ?_⟩
        simp only [hs, Option.bind_some, specVariant] at hv
        by_cases h1 : md.Type_ = "generic"
        · exact Or.inl h1
        · by_cases h2 : md.Type_ = "kv"
          · exact Or.inr h2
          · simp [h1, h2] at hv
    · rintro ⟨md, hmem, hkind⟩
      rw [hget2, GoMap.get?_of_mem secret hwf mount md hmem]
      simp only [Option.bind_some, specVariant]
      by_cases h1 : md.Type_ = "generic"
      · exact ⟨"kv1", by simp [h1]⟩
      · have h2 : md.Type_ = "kv" := hkind.resolve_left h1
        by_cases h3 : md.Options.get? "version" = some "1"
        · exact ⟨"kv1", by simp [h2, h3]⟩
        · exact ⟨"kv2", by simp [h2, h3]⟩
  · rw [hget2, GoMap.get?_of_mem secret hwf mount md hmem]
    simp only [Option.bind_some, specVariant]
    refine ⟨fun h1 => by simp [h1], fun h2 h3 => by simp [h2, h3], fun h2 h3 => by simp [h2, h3],
      fun h1 h2 => by simp [h1, h2]⟩

/-- Witness of C3: a server with a `generic` mount, three `kv` mounts and a
`system` mount. -/
theorem GetMounts_classifies_witness :
    ∃ mounts, GetMounts (silent fiveMounts) = .ok mounts ∧ mounts.WF ∧
      (∀ mount, mount ∈ mounts.keys ↔
        ∃ metadata, (mount, metadata) ∈ fiveMounts ∧
          (metadata.Type_ = "generic" ∨ metadata.Type_ = "kv")) ∧
      (∀ mount metadata, (mount, metadata) ∈ fiveMounts →
        (metadata.Type_ = "generic" → mounts.get? mount = some "kv1") ∧
        (metadata.Type_ = "kv" → metadata.Options.get? "version" = some "1" →
          mounts.get? mount = some "kv1") ∧
        (metadata.Type_ = "kv" → metadata.Options.get? "version" ≠ some "1" →
          mounts.get? mount = some "kv2") ∧
        (metadata.Type_ ≠ "generic" → metadata.Type_ ≠ "kv" → mounts.get? mount = none)) :=
  GetMounts_classifies (silent fiveMounts) fiveMounts rfl (by decide)

/-- C4: with no mount of a recognized kind (no mount at all, or only a
`system` mount) `GetMounts` returns the empty map instead of exiting with an
error, and the run ends normally, with no request sent and nothing written. -/
theorem GetMounts_no_mounts_returns_empty :
    GetMounts (silent []) = .ok [] ∧
    GetMounts (silent [("sys/", ⟨"system", []⟩)]) = .ok [] ∧
    (main (silent [("sys/", ⟨"system", []⟩)]) acceptAll 5).outcome = .ok () ∧
    (main (silent [("sys/", ⟨"system", []⟩)]) acceptAll 5).calls = [] ∧
    (main (silent [("sys/", ⟨"system", []⟩)]) acceptAll 5).published = ⟨[], []⟩ := by
  decide


/-! ## `mergeMap` -/

/-- C5: after `mergeMap source destination` every key of `source` reads
`source`'s value and every other key reads what `destination` held; the result
is again a map when `destination` was; and when the key sets are disjoint the
result has the sum of the two sizes and exactly the entries of both. -/
theorem mergeMap_last_write_wins (source destination : GoMap String) (hs : source.WF) :
    (∀ k v, source.get? k = some v → (mergeMap source destination).get? k = some v) ∧
    (∀ k, source.get? k = none →
      (mergeMap source destination).get? k = destination.get? k) ∧
    (destination.WF → (mergeMap source destination).WF) ∧
    ((∀ k, k ∈ source.keys → k ∉ destination.keys) →
      (mergeMap source destination).length = source.length + destination.length ∧
      ∀ e, e ∈ mergeMap source destination ↔ e ∈ source ∨ e ∈ destination) := by
  refine ⟨fun k v h => ?_, fun k h => ?_, WF_mergeMap source destination, fun hd => ?_⟩
  · rw [get?_mergeMap, get?_reverse source hs, h]
  · rw [get?_mergeMap, get?_reverse source hs, h]
  · rw [mergeMap_disjoint source destination hs hd]
    refine ⟨by simp [Nat.add_comm], fun e => ?_⟩
    simp only [List.mem_append]
    tauto

/-- Witness of C5: a merge with one shared key and one new key. -/
theorem mergeMap_last_write_wins_witness :
    (∀ k v, GoMap.get? [("a", "1"), ("b", "2")] k = some v →
      (mergeMap [("a", "1"), ("b", "2")] [("b", "0"), ("c", "3")]).get? k = some v) ∧
    (∀ k, GoMap.get? ([("a", "1"), ("b", "2")] : GoMap String) k = none →
      (mergeMap [("a", "1"), ("b", "2")] [("b", "0"), ("c", "3")]).get? k =
        GoMap.get? [("b", "0"), ("c", "3")] k) ∧
    (GoMap.WF ([("b", "0"), ("c", "3")] : GoMap String) →
      (mergeMap [("a", "1"), ("b", "2")] [("b", "0"), ("c", "3")]).WF) ∧
    ((∀ k, k ∈ GoMap.keys ([("a", "1"), ("b", "2")] : GoMap String) →
        k ∉ GoMap.keys ([("b", "0"), ("c", "3")] : GoMap String)) →
      (mergeMap [("a", "1"), ("b", "2")] [("b", "0"), ("c", "3")]).length =
        List.length ([("a", "1"), ("b", "2")] : GoMap String) +
          List.length ([("b", "0"), ("c", "3")] : GoMap String) ∧
      ∀ e, e ∈ mergeMap [("a", "1"), ("b", "2")] [("b", "0"), ("c", "3")] ↔
        e ∈ ([("a", "1"), ("b", "2")] : GoMap String) ∨
          e ∈ ([("b", "0"), ("c", "3")] : GoMap String)) :=
  mergeMap_last_write_wins [("a", "1"), ("b", "2")] [("b", "0"), ("c", "3")] (by decide)

/-! ## `writeToParamStore` -/

theorem writeToParamStore_puts (svc : SSM) (data : GoMap String) (acc : Published) :
    (writeToParamStore svc data acc).puts =
      acc.puts ++ data.map (fun e => { Name := "/" ++ e.1, Value := e.2, Type_ := "String" }) := by
  induction data generalizing acc with
  | nil => simp [writeToParamStore]
  | cons e t ih =>
    obtain ⟨k, v⟩ := e
    simp only [writeToParamStore, List.map_cons]
    rw [ih]
    simp

/-- C9: whatever the SSM service answers, `writeToParamStore` sends exactly
one write per entry of the map, in `range` order, named `/` followed by the
key, holding the entry's value, of type `String`. -/
theorem writeToParamStore_one_write_per_entry (svc : SSM) (data : GoMap String) :
    (writeToParamStore svc data ⟨[], []⟩).puts =
      data.map (fun e => { Name := "/" ++ e.1, Value := e.2, Type_ := "String" }) := by
  rw [writeToParamStore_puts]
  rfl

/-- C10: in scenario E the write of `a/b` fails and the write of `c/d`
succeeds; `writeToParamStore` prints the bare error of the failed write,
without the entry name, and then the success line of `a/b` all the same. -/
theorem writeToParamStore_reports_success_on_failure :
    scenarioE.PutParameter { Name := "/a/b", Value := "1", Type_ := "String" }
      = some "AccessDenied" ∧
    (writeToParamStore scenarioE [("a/b", "1"), ("c/d", "2")] ⟨[], []⟩).out =
      ["AccessDenied\n", "Parameter \x27a/b\x27 created successfully.\n",
       "Parameter \x27c/d\x27 created successfully.\n"] := by
  decide

/-- C2: the leaf `kv/config` holds the payload `value = 42, host = "x"`, whose
`value` field is not a string; the walk reads the leaf and ends normally with
no entry for `kv/config`, and nothing is published. -/
theorem listRecursive_drops_non_string_value :
    (main numericValue acceptAll 5).outcome = .ok () ∧
    (main numericValue acceptAll 5).calls =
      [Call.list "/v1/kv//data?list=true", Call.getV2 "kv" "kv/config"] ∧
    (main numericValue acceptAll 5).SSMData = [] ∧
    (main numericValue acceptAll 5).published.puts = [] ∧
    (listRecursive.store numericValue "kv/config"
      (some { Data := some [("value", JVal.num 42), ("host", JVal.str "x")] }) []) =
      (.ok (), []) := by
  decide


/-! ## `readSecret` and the leaf block -/

theorem readSecret_calls (client : Client) (path bt : String) (calls : List Call) :
    readSecret client path bt calls =
      ((readSecret client path bt []).1, calls ++ (readSecret client path bt []).2) := by
  unfold readSecret
  generalize cut path = cp
  obtain ⟨mount, tail⟩ := cp
  by_cases h1 : bt = "kv1"
  · simp only [h1, if_true]
    cases tail with
    | none => simp
    | some rest =>
      simp only
      cases client.KVv1Get mount rest <;> simp
  · by_cases h2 : bt = "kv2"
    · simp only [h1, h2, if_true, if_false]
      cases client.KVv2Get mount path <;> simp
    · simp [h1, h2]

theorem store_string (client : Client) (subPath : String) (data : GoMap JVal) (s : String)
    (kv : GoMap String) (h : data.get? "value" = some (JVal.str s)) :
    listRecursive.store client subPath (some { Data := some data }) kv =
      (.ok (), kv.set subPath s) := by
  simp [listRecursive.store, h, JVal.notNil, JVal.asString]

theorem store_yields (client : Client) (subPath : String) (data : GoMap JVal) (v : String)
    (kv : GoMap String) (h : YieldsFlat client data v) :
    listRecursive.store client subPath (some { Data := some data }) kv =
      (.ok (), kv.set subPath v) := by
  rcases h with h | ⟨h, hm⟩
  · exact store_string client subPath data v kv h
  · rcases h with h | h <;> simp [listRecursive.store, h, JVal.notNil, hm]

theorem loop_leaf (recurse : String → Walk → Res Unit × Walk) (client : Client)
    (path bt key : String) (rest : List String) (w : Walk) (ch : Char)
    (hkey : key.data.getLast? = some ch) (hch : ch ≠ '/') :
    listRecursive.loop recurse client path bt (key :: rest) w =
      match readSecret client (path ++ key) bt w.calls with
      | (.error f, calls) => (.error f, { KVData := w.KVData, calls := calls })
      | (.ok secret, calls) =>
        match listRecursive.store client (path ++ key) secret w.KVData with
        | (.error f, kv) => (.error f, { KVData := kv, calls := calls })
        | (.ok _, kv) =>
          listRecursive.loop recurse client path bt rest { KVData := kv, calls := calls } := by
  rw [listRecursive.loop]
  simp only [hkey, hch, if_false]

theorem loop_dir (recurse : String → Walk → Res Unit × Walk) (client : Client)
    (path bt key : String) (rest : List String) (w : Walk)
    (hkey : key.data.getLast? = some '/') :
    listRecursive.loop recurse client path bt (key :: rest) w =
      match recurse (path ++ key) w with
      | (.error f, w1) => (.error f, w1)
      | (.ok _, w1) => listRecursive.loop recurse client path bt rest w1 := by
  rw [listRecursive.loop]
  simp only [hkey, if_true]

/-- C1: when the key is a leaf name, the read of `path ++ key` succeeds with a
payload present, and the payload's `value` field is the string `s`, the leaf
block stores `s` itself under `path ++ key` (whatever the other fields and
whatever the encoder would answer), the loop goes on with the remaining keys
from that map, and the map then reads `s` at `path ++ key`. -/
theorem listRecursive_records_string_value (recurse : String → Walk → Res Unit × Walk)
    (client : Client) (path bt key : String) (rest : List String) (w : Walk) (ch : Char)
    (data : GoMap JVal) (s : String) (calls1 : List Call)
    (hkey : key.data.getLast? = some ch) (hch : ch ≠ '/')
    (hread : readSecret client (path ++ key) bt w.calls =
      (.ok (some { Data := some data }), calls1))
    (hval : data.get? "value" = some (JVal.str s)) :
    listRecursive.store client (path ++ key) (some { Data := some data }) w.KVData =
      (.ok (), w.KVData.set (path ++ key) s) ∧
    listRecursive.loop recurse client path bt (key :: rest) w =
      listRecursive.loop recurse client path bt rest
        { KVData := w.KVData.set (path ++ key) s, calls := calls1 } ∧
    (w.KVData.set (path ++ key) s).get? (path ++ key) = some s := by
  have hs := store_string client (path ++ key) data s w.KVData hval
  refine ⟨hs, ?_, by simp [GoMap.get?_set]⟩
  rw [loop_leaf recurse client path bt key rest w ch hkey hch, hread]
  simp only [hs]

/-- Witness of C1: the leaf `db` of scenario A (mount reported as `secret`),
stored into a map that already holds an entry. -/
theorem listRecursive_records_string_value_witness :
    listRecursive.store scenarioAPlain ("secret/app/" ++ "db")
        (some { Data := some [("value", JVal.str "pw123")] }) [("x", "y")] =
      (.ok (), GoMap.set [("x", "y")] ("secret/app/" ++ "db") "pw123") ∧
    listRecursive.loop (fun _ w => (.ok (), w)) scenarioAPlain "secret/app/" "kv1"
        ("db" :: ["other/"]) { KVData := [("x", "y")], calls := [] } =
      listRecursive.loop (fun _ w => (.ok (), w)) scenarioAPlain "secret/app/" "kv1" ["other/"]
        { KVData := GoMap.set [("x", "y")] ("secret/app/" ++ "db") "pw123",
          calls := [Call.getV1 "secret" "app/db"] } ∧
    (GoMap.set [("x", "y")] ("secret/app/" ++ "db") "pw123").get? ("secret/app/" ++ "db") =
      some "pw123" :=
  listRecursive_records_string_value (fun _ w => (.ok (), w)) scenarioAPlain "secret/app/" "kv1"
    "db" ["other/"] { KVData := [("x", "y")], calls := [] } 'b'
    [("value", JVal.str "pw123")] "pw123" [Call.getV1 "secret" "app/db"]
    (by decide) (by decide) (by rfl) (by rfl)


/-! ## The walk of a listing tree -/

theorem listRecursive_succ (client : Client) (fuel : Nat) (path bt : String) (w : Walk) :
    listRecursive client (fuel + 1) path bt w =
      match listRecursive.url path bt with
      | none => (.error (.err ("unknown backend type " ++ bt ++ " for path " ++ path)), w)
      | some u =>
        match client.RawList u with
        | .error e =>
          (.error (.err e), { KVData := w.KVData, calls := w.calls ++ [Call.list u] })
        | .ok keys =>
          listRecursive.loop (fun sub w1 => listRecursive client fuel sub bt w1)
            client path bt keys { KVData := w.KVData, calls := w.calls ++ [Call.list u] } := by
  rw [listRecursive]

theorem loop_serves (client : Client) (bt : String) (t : Listing) :
    ∀ (path : String) (w : Walk) (fuel : Nat), Serves client bt path t → t.depth ≤ fuel →
      ∃ calls1,
        listRecursive.loop (fun sub w1 => listRecursive client fuel sub bt w1) client path bt
          t.names w = (.ok (), { KVData := mergeMap (t.entries path) w.KVData, calls := calls1 }) := by
  induction t with
  | done =>
    intro path w fuel _ _
    exact ⟨w.calls, rfl⟩
  | leaf n d v rest ih =>
    intro path w fuel hs hf
    obtain ⟨⟨ch, hkey, hch⟩, hread, hy, hrest⟩ := hs
    obtain ⟨calls1, h1⟩ := ih path
      { KVData := w.KVData.set (path ++ n) v,
        calls := w.calls ++ (readSecret client (path ++ n) bt []).2 } fuel hrest hf
    refine ⟨calls1, ?_⟩
    simp only [Listing.names, Listing.entries, mergeMap_cons]
    rw [loop_leaf _ client path bt n _ w ch hkey hch, readSecret_calls, hread]
    simp only [store_yields client (path ++ n) d v w.KVData hy]
    exact h1
  | dir n kids rest ihk ihr =>
    intro path w fuel hs hf
    obtain ⟨hkey, ⟨u, hu, hlist⟩, hkids, hrest⟩ := hs
    simp only [Listing.depth] at hf
    obtain ⟨fuel1, rfl⟩ : ∃ f, fuel = f + 1 := ⟨fuel - 1, by omega⟩
    obtain ⟨calls1, h1⟩ := ihk (path ++ n)
      { KVData := w.KVData, calls := w.calls ++ [Call.list u] } fuel1 hkids (by omega)
    obtain ⟨calls2, h2⟩ := ihr path
      { KVData := mergeMap (kids.entries (path ++ n)) w.KVData, calls := calls1 } (fuel1 + 1)
      hrest (by omega)
    refine ⟨calls2, ?_⟩
    simp only [Listing.names, Listing.entries, mergeMap_append]
    rw [loop_dir _ client path bt n _ w hkey]
    simp only [listRecursive_succ, hu, hlist, h1]
    exact h2

theorem listRecursive_hosts (client : Client) (bt path : String) (t : Listing)
    (h : Hosts client bt path t) (w : Walk) (fuel : Nat) (hf : t.depth < fuel) :
    ∃ calls1, listRecursive client fuel path bt w =
      (.ok (), { KVData := mergeMap (t.entries path) w.KVData, calls := calls1 }) := by
  obtain ⟨⟨u, hu, hlist⟩, hs⟩ := h
  obtain ⟨fuel1, rfl⟩ : ∃ f, fuel = f + 1 := ⟨fuel - 1, by omega⟩
  obtain ⟨calls1, h1⟩ := loop_serves client bt t path
    { KVData := w.KVData, calls := w.calls ++ [Call.list u] } fuel1 hs (by omega)
  exact ⟨calls1, by simp only [listRecursive_succ, hu, hlist, h1]⟩

theorem entries_no_trailing_sep (client : Client) (bt : String) (t : Listing) :
    ∀ (path : String), Serves client bt path t →
      ∀ k, k ∈ GoMap.keys (t.entries path) → k.data.getLast? ≠ some '/' := by
  induction t with
  | done =>
    intro path _ k hk
    simp [Listing.entries, GoMap.keys] at hk
  | leaf n d v rest ih =>
    intro path hs k hk
    obtain ⟨⟨ch, hkey, hch⟩, _, _, hrest⟩ := hs
    simp only [Listing.entries, GoMap.keys, List.map_cons, List.mem_cons] at hk
    rcases hk with rfl | hk
    · simp only [String.data_append, List.getLast?_append, hkey, Option.or_some]
      intro h
      exact hch (Option.some.inj h)
    · exact ih path hrest k hk
  | dir n kids rest ihk ihr =>
    intro path hs k hk
    obtain ⟨_, _, hkids, hrest⟩ := hs
    simp only [Listing.entries, GoMap.keys, List.map_append, List.mem_append] at hk
    rcases hk with hk | hk
    · exact ihk (path ++ n) hkids k hk
    · exact ihr path hrest k hk

theorem entries_eq_leaves (t : Listing) :
    ∀ (path : String), t.entries path = t.leaves.map (fun e => (path ++ e.1, e.2)) := by
  induction t with
  | done => intro path; rfl
  | leaf n d v rest ih =>
    intro path
    simp [Listing.entries, Listing.leaves, ih path]
  | dir n kids rest ihk ihr =>
    intro path
    simp [Listing.entries, Listing.leaves, ihk (path ++ n), ihr path, String.append_assoc]


theorem get?_mergeMap_of_mem (s d : GoMap String) (k : String) (hk : k ∈ s.keys) :
    ∃ v, (k, v) ∈ s ∧ (mergeMap s d).get? k = some v := by
  have hk2 : k ∈ GoMap.keys s.reverse := by
    simpa [GoMap.keys] using hk
  obtain ⟨v, hv⟩ := (GoMap.mem_keys_iff_get? s.reverse k).1 hk2
  refine ⟨v, List.mem_reverse.1 (GoMap.mem_of_get? s.reverse k v hv), ?_⟩
  rw [get?_mergeMap, hv]

theorem get?_mergeMap_of_not_mem (s d : GoMap String) (k : String) (hk : k ∉ s.keys) :
    (mergeMap s d).get? k = d.get? k := by
  have hk2 : k ∉ GoMap.keys s.reverse := by
    simpa [GoMap.keys] using hk
  rw [get?_mergeMap, (GoMap.get?_eq_none s.reverse k).2 hk2]

/-- C7: when the server holds the finite listing tree `t` at `path` (every
list and read below `path` succeeds, leaf names are non-empty and do not end
in `/`, folder names end in `/`, every leaf payload yields a flat value),
`listRecursive` with more fuel than the depth of `t` returns normally, and the
map it leaves is the given map with the leaves of `t` assigned in walk order:
its keys are the previous keys and the leaf paths (`path` followed by the
child names leading to the leaf), a leaf path reads the flat value of a leaf
with that path, any other key reads what it read before, the map has one
entry per leaf path (it is well formed, and counts one more entry per leaf
when the leaf paths are distinct and new), and no leaf path ends in `/`. -/
theorem listRecursive_walks_tree (client : Client) (bt path : String) (t : Listing)
    (h : Hosts client bt path t) (w : Walk) (fuel : Nat) (hf : t.depth < fuel) :
    (listRecursive client fuel path bt w).1 = .ok () ∧
    (listRecursive client fuel path bt w).2.KVData = mergeMap (t.entries path) w.KVData ∧
    t.entries path = t.leaves.map (fun e => (path ++ e.1, e.2)) ∧
    (∀ k, k ∈ (listRecursive client fuel path bt w).2.KVData.keys ↔
      k ∈ w.KVData.keys ∨ k ∈ GoMap.keys (t.entries path)) ∧
    (∀ k, k ∈ GoMap.keys (t.entries path) → ∃ v, (k, v) ∈ t.entries path ∧
      (listRecursive client fuel path bt w).2.KVData.get? k = some v) ∧
    (∀ k, k ∉ GoMap.keys (t.entries path) →
      (listRecursive client fuel path bt w).2.KVData.get? k = w.KVData.get? k) ∧
    (w.KVData.WF → (listRecursive client fuel path bt w).2.KVData.WF) ∧
    (GoMap.WF (t.entries path) → (∀ k, k ∈ GoMap.keys (t.entries path) → k ∉ w.KVData.keys) →
      (listRecursive client fuel path bt w).2.KVData.length =
        w.KVData.length + t.leaves.length) ∧
    (∀ k, k ∈ GoMap.keys (t.entries path) → k.data.getLast? ≠ some '/') := by
  obtain ⟨calls1, hrun⟩ := listRecursive_hosts client bt path t h w fuel hf
  rw [hrun]
  refine ⟨rfl, rfl, entries_eq_leaves t path, fun k => ?_, fun k hk => ?_, fun k hk => ?_,
    WF_mergeMap _ _, fun hwf hd => ?_, entries_no_trailing_sep client bt t path h.2⟩
  · rw [mem_keys_mergeMap]
    tauto
  · exact get?_mergeMap_of_mem _ _ k hk
  · exact get?_mergeMap_of_not_mem _ _ k hk
  · simp only
    rw [mergeMap_disjoint _ _ hwf hd, entries_eq_leaves]
    simp

theorem scenarioC_hosts : Hosts scenarioC "kv2" "kv/sub/" treeC :=
  ⟨⟨"/v1/kv/sub//data?list=true", rfl, rfl⟩,
    ⟨⟨'1', by decide, by decide⟩, rfl, Or.inl rfl,
      by decide, ⟨"/v1/kv/sub/nested//data?list=true", rfl, rfl⟩,
      ⟨⟨'p', by decide, by decide⟩, rfl, Or.inr ⟨Or.inl rfl, rfl⟩, trivial⟩, trivial⟩⟩

/-- Witness of C7: scenario C, the listing of `kv/sub/` with the leaf `leaf1`
and the folder `nested/`. -/
theorem listRecursive_walks_tree_witness :
    (listRecursive scenarioC 2 "kv/sub/" "kv2" ⟨[], []⟩).1 = .ok () ∧
    (listRecursive scenarioC 2 "kv/sub/" "kv2" ⟨[], []⟩).2.KVData =
      [("kv/sub/leaf1", "one"), ("kv/sub/nested/deep", "\x7b\"host\":\"x\"\x7d")] :=
  ⟨(listRecursive_walks_tree scenarioC "kv2" "kv/sub/" treeC scenarioC_hosts ⟨[], []⟩ 2
      (by decide)).1,
    (listRecursive_walks_tree scenarioC "kv2" "kv/sub/" treeC scenarioC_hosts ⟨[], []⟩ 2
      (by decide)).2.1⟩


/-! ## Failed requests -/

theorem AllGood.nil (client : Client) : AllGood client [] := by
  intro c hc
  simp at hc

theorem AllGood.append {client : Client} {l1 l2 : List Call} (h1 : AllGood client l1)
    (h2 : AllGood client l2) : AllGood client (l1 ++ l2) := by
  intro c hc
  rcases List.mem_append.1 hc with h | h
  · exact h1 c h
  · exact h2 c h

theorem Traced.of_ok {α : Type} {client : Client} {mk : String → Fail} {new : List Call} {a : α}
    (h : Traced client mk new (.ok a : Res α)) : AllGood client new := by
  rcases h with h | ⟨_, _, _, _, _, _, h⟩
  · exact h
  · cases h

theorem Traced.prepend {α : Type} {client : Client} {mk : String → Fail} {l1 l2 : List Call}
    {r : Res α} (h1 : AllGood client l1) (h2 : Traced client mk l2 r) :
    Traced client mk (l1 ++ l2) r := by
  rcases h2 with h | ⟨init, last, e, rfl, hinit, hlast, hr⟩
  · exact Or.inl (h1.append h)
  · exact Or.inr ⟨l1 ++ init, last, e, by simp, h1.append hinit, hlast, hr⟩

theorem Traced.error_cast {α β : Type} {client : Client} {mk : String → Fail}
    {new : List Call} {f : Fail} (h : Traced client mk new (.error f : Res α)) :
    Traced client mk new (.error f : Res β) := by
  rcases h with h | ⟨init, last, e, hn, hinit, hlast, hr⟩
  · exact Or.inl h
  · cases hr
    exact Or.inr ⟨init, last, e, hn, hinit, hlast, rfl⟩

/-- A failed request among traced requests is the last one, and its error is
the one the call ended with. -/
theorem Traced.last_fails {α : Type} {client : Client} {mk : String → Fail} {new : List Call}
    {r : Res α} (h : Traced client mk new r) (pre post : List Call) (call : Call) (e : String)
    (hnew : new = pre ++ call :: post) (hf : client.fails call = some e) :
    post = [] ∧ r = .error (mk e) := by
  rcases h with h | ⟨init, last, e1, hinit, hgood, hlast, hr⟩
  · have := h call (by simp [hnew])
    rw [this] at hf
    cases hf
  · rw [hnew] at hinit
    rcases List.eq_nil_or_concat post with hp | ⟨post1, z, hp⟩
    · subst hp
      have h2 := List.append_inj' hinit rfl
      have h3 : call = last := by simpa using h2.2
      subst h3
      rw [hlast] at hf
      cases hf
      exact ⟨rfl, hr⟩
    · subst hp
      have h2 : pre ++ call :: post1 = init := by
        have h3 : (pre ++ call :: post1) ++ [z] = init ++ [last] := by simpa using hinit
        exact (List.append_inj' h3 rfl).1
      have := hgood call (by simp [← h2])
      rw [this] at hf
      cases hf

theorem readSecret_traced (client : Client) (path bt : String) (calls : List Call) :
    ∃ new, (readSecret client path bt calls).2 = calls ++ new ∧
      Traced client Fail.err new (readSecret client path bt calls).1 := by
  unfold readSecret
  generalize cut path = cp
  obtain ⟨mount, tail⟩ := cp
  by_cases h1 : bt = "kv1"
  · simp only [h1, if_true]
    cases tail with
    | none => exact ⟨[], by simp, Or.inl (AllGood.nil client)⟩
    | some rest =>
      simp only
      cases hg : client.KVv1Get mount rest with
      | error e =>
        exact ⟨[Call.getV1 mount rest], rfl,
          Or.inr ⟨[], Call.getV1 mount rest, e, rfl, AllGood.nil client,
            by simp [Client.fails, hg], rfl⟩⟩
      | ok secret =>
        refine ⟨[Call.getV1 mount rest], rfl, Or.inl ?_⟩
        intro c hc
        simp only [List.mem_singleton] at hc
        subst hc
        simp [Client.fails, hg]
  · by_cases h2 : bt = "kv2"
    · simp only [h1, h2, if_true, if_false]
      cases hg : client.KVv2Get mount path with
      | error e =>
        exact ⟨[Call.getV2 mount path], rfl,
          Or.inr ⟨[], Call.getV2 mount path, e, rfl, AllGood.nil client,
            by simp [Client.fails, hg], rfl⟩⟩
      | ok secret =>
        refine ⟨[Call.getV2 mount path], rfl, Or.inl ?_⟩
        intro c hc
        simp only [List.mem_singleton] at hc
        subst hc
        simp [Client.fails, hg]
    · simp only [h1, h2, if_false]
      exact ⟨[], by simp, Or.inl (AllGood.nil client)⟩

theorem loop_traced (client : Client) (recurse : String → Walk → Res Unit × Walk)
    (path bt : String)
    (hrec : ∀ sub w, ∃ new, (recurse sub w).2.calls = w.calls ++ new ∧
      Traced client Fail.err new (recurse sub w).1)
    (keys : List String) :
    ∀ w, ∃ new, (listRecursive.loop recurse client path bt keys w).2.calls = w.calls ++ new ∧
      Traced client Fail.err new (listRecursive.loop recurse client path bt keys w).1 := by
  induction keys with
  | nil =>
    intro w
    exact ⟨[], by simp [listRecursive.loop], Or.inl (AllGood.nil client)⟩
  | cons key rest ih =>
    intro w
    rw [listRecursive.loop]
    cases hk : key.data.getLast? with
    | none => exact ⟨[], by simp, Or.inl (AllGood.nil client)⟩
    | some ch =>
      simp only
      by_cases hch : ch = '/'
      · simp only [hch, if_true]
        obtain ⟨n1, hc1, ht1⟩ := hrec (path ++ key) w
        rcases hr : recurse (path ++ key) w with ⟨r1, w1⟩
        rw [hr] at hc1 ht1
        cases r1 with
        | error f => exact ⟨n1, hc1, ht1⟩
        | ok u =>
          obtain ⟨n2, hc2, ht2⟩ := ih w1
          refine ⟨n1 ++ n2, ?_, Traced.prepend ht1.of_ok ht2⟩
          simp only at hc1
          simp only [hc2, hc1, List.append_assoc]
      · simp only [hch, if_false]
        obtain ⟨n1, hc1, ht1⟩ := readSecret_traced client (path ++ key) bt w.calls
        rcases hr : readSecret client (path ++ key) bt w.calls with ⟨r1, c1⟩
        rw [hr] at hc1 ht1
        simp only at hc1 ht1
        subst hc1
        cases r1 with
        | error f => exact ⟨n1, rfl, ht1.error_cast⟩
        | ok secret =>
          simp only
          have hgood := ht1.of_ok
          rcases hs : listRecursive.store client (path ++ key) secret w.KVData with ⟨r2, kv⟩
          cases r2 with
          | error f => exact ⟨n1, rfl, Or.inl hgood⟩
          | ok u =>
            obtain ⟨n2, hc2, ht2⟩ := ih { KVData := kv, calls := w.calls ++ n1 }
            refine ⟨n1 ++ n2, ?_, Traced.prepend hgood ht2⟩
            simp only [hc2, List.append_assoc]

theorem listRecursive_traced (client : Client) (bt : String) (fuel : Nat) :
    ∀ path w, ∃ new, (listRecursive client fuel path bt w).2.calls = w.calls ++ new ∧
      Traced client Fail.err new (listRecursive client fuel path bt w).1 := by
  induction fuel with
  | zero =>
    intro path w
    exact ⟨[], by simp [listRecursive], Or.inl (AllGood.nil client)⟩
  | succ fuel ih =>
    intro path w
    rw [listRecursive_succ]
    cases hu : listRecursive.url path bt with
    | none => exact ⟨[], by simp, Or.inl (AllGood.nil client)⟩
    | some u =>
      simp only
      cases hl : client.RawList u with
      | error e =>
        exact ⟨[Call.list u], rfl,
          Or.inr ⟨[], Call.list u, e, rfl, AllGood.nil client, by simp [Client.fails, hl], rfl⟩⟩
      | ok keys =>
        simp only
        obtain ⟨n2, hc2, ht2⟩ := loop_traced client
          (fun sub w1 => listRecursive client fuel sub bt w1) path bt (fun sub w1 => ih sub w1)
          keys { KVData := w.KVData, calls := w.calls ++ [Call.list u] }
        have hgood : AllGood client [Call.list u] := by
          intro c hc
          simp only [List.mem_singleton] at hc
          subst hc
          simp [Client.fails, hl]
        refine ⟨[Call.list u] ++ n2, ?_, Traced.prepend hgood ht2⟩
        simp only [hc2, List.append_assoc]


/-! ## The run -/

theorem main_loop_cons (client : Client) (fuel : Nat) (path bt : String)
    (rest SSMData : GoMap String) (calls : List Call) :
    main.loop client fuel ((path, bt) :: rest) SSMData calls =
      match listRecursive client fuel (path ++ "/") bt { KVData := [], calls := calls } with
      | (.error (.err e), w) => (.error (.panic e), SSMData, w.calls)
      | (.error f, w) => (.error f, SSMData, w.calls)
      | (.ok _, w) => main.loop client fuel rest (mergeMap w.KVData SSMData) w.calls := by
  rw [main.loop]

theorem main_loop_traced (client : Client) (fuel : Nat) (mounts : GoMap String) :
    ∀ SSMData calls, ∃ new, (main.loop client fuel mounts SSMData calls).2.2 = calls ++ new ∧
      Traced client Fail.panic new (main.loop client fuel mounts SSMData calls).1 := by
  induction mounts with
  | nil =>
    intro SSMData calls
    exact ⟨[], by simp [main.loop], Or.inl (AllGood.nil client)⟩
  | cons m rest ih =>
    intro SSMData calls
    obtain ⟨path, bt⟩ := m
    rw [main_loop_cons]
    obtain ⟨n1, hc1, ht1⟩ := listRecursive_traced client bt fuel (path ++ "/")
      { KVData := [], calls := calls }
    rcases hr : listRecursive client fuel (path ++ "/") bt { KVData := [], calls := calls }
      with ⟨r1, w1⟩
    rw [hr] at hc1 ht1
    simp only at hc1 ht1
    cases r1 with
    | ok u =>
      simp only
      obtain ⟨n2, hc2, ht2⟩ := ih (mergeMap w1.KVData SSMData) w1.calls
      refine ⟨n1 ++ n2, ?_, Traced.prepend ht1.of_ok ht2⟩
      rw [hc2, hc1, List.append_assoc]
    | error f =>
      rcases ht1 with hg | ⟨init, last, e, hn, hinit, hlast, hr2⟩
      · cases f <;> exact ⟨n1, hc1, Or.inl hg⟩
      · cases hr2
        exact ⟨n1, hc1, Or.inr ⟨init, last, e, hn, hinit, hlast, rfl⟩⟩

theorem main_loop_append (client : Client) (fuel : Nat) (done rest : GoMap String) :
    ∀ SSMData calls, main.loop client fuel (done ++ rest) SSMData calls =
      match main.loop client fuel done SSMData calls with
      | (.error f, data, calls1) => (.error f, data, calls1)
      | (.ok _, data, calls1) => main.loop client fuel rest data calls1 := by
  induction done with
  | nil =>
    intro SSMData calls
    simp [main.loop]
  | cons m t ih =>
    intro SSMData calls
    obtain ⟨path, bt⟩ := m
    rw [List.cons_append, main_loop_cons, main_loop_cons]
    rcases hr : listRecursive client fuel (path ++ "/") bt { KVData := [], calls := calls }
      with ⟨r1, w1⟩
    cases r1 with
    | ok u => simp only [ih]
    | error f => cases f <;> rfl

theorem main_loop_failed_walk (client : Client) (fuel : Nat) (path bt : String)
    (rest SSMData : GoMap String) (calls : List Call) (f : Fail)
    (h : (listRecursive client fuel (path ++ "/") bt { KVData := [], calls := calls }).1 =
      .error f) :
    ∃ f1 calls1, main.loop client fuel ((path, bt) :: rest) SSMData calls =
      (.error f1, SSMData, calls1) := by
  rw [main_loop_cons]
  rcases hr : listRecursive client fuel (path ++ "/") bt { KVData := [], calls := calls }
    with ⟨r1, w1⟩
  rw [hr] at h
  simp only at h
  subst h
  cases f <;> exact ⟨_, _, rfl⟩

/-- C8: a failed listing or read is the last request of the walk and of the
run: `listRecursive` returns its error with no further request sent, `main`
then ends in a panic with that error and publishes nothing; and when the walk
of a mount fails after the mounts before it were walked, the global map is
the one those mounts left, whatever the failed walk had collected. -/
theorem failed_request_aborts_run (client : Client) (svc : SSM) (fuel : Nat) :
    (∀ path bt w pre call post e,
      (listRecursive client fuel path bt w).2.calls = w.calls ++ (pre ++ call :: post) →
      client.fails call = some e →
      post = [] ∧ (listRecursive client fuel path bt w).1 = .error (.err e)) ∧
    (∀ pre call post e,
      (main client svc fuel).calls = pre ++ call :: post →
      client.fails call = some e →
      post = [] ∧ (main client svc fuel).outcome = .error (.panic e) ∧
        (main client svc fuel).published = ⟨[], []⟩) ∧
    (∀ done path bt rest data calls1 f,
      GetMounts client = .ok (done ++ (path, bt) :: rest) →
      main.loop client fuel done [] [] = (.ok (), data, calls1) →
      (listRecursive client fuel (path ++ "/") bt { KVData := [], calls := calls1 }).1 =
        .error f →
      (main client svc fuel).SSMData = data ∧ (main client svc fuel).published = ⟨[], []⟩ ∧
        ∃ f1, (main client svc fuel).outcome = .error f1) := by
  refine ⟨?_, ?_, ?_⟩
  · intro path bt w pre call post e hcalls hf
    obtain ⟨new, hc, ht⟩ := listRecursive_traced client bt fuel path w
    rw [hc] at hcalls
    exact ht.last_fails pre post call e (List.append_cancel_left hcalls) hf
  · intro pre call post e hcalls hf
    unfold main at hcalls ⊢
    cases hg : GetMounts client with
    | error f1 =>
      rw [hg] at hcalls
      simp at hcalls
    | ok mounts =>
      rw [hg] at hcalls
      simp only at hcalls ⊢
      obtain ⟨new, hc, ht⟩ := main_loop_traced client fuel mounts [] []
      rcases hr : main.loop client fuel mounts [] [] with ⟨r1, data, calls1⟩
      rw [hr] at hcalls hc ht
      simp only at hc ht
      cases r1 with
      | ok u =>
        simp only at hcalls
        rw [hc, List.nil_append] at hcalls
        have := (ht.last_fails pre post call e hcalls hf).2
        cases this
      | error f1 =>
        simp only at hcalls ⊢
        rw [hc, List.nil_append] at hcalls
        obtain ⟨hp, hr2⟩ := ht.last_fails pre post call e hcalls hf
        cases hr2
        exact ⟨hp, rfl, trivial⟩
  · intro done path bt rest data calls1 f hg hdone hwalk
    obtain ⟨f1, calls2, hl⟩ := main_loop_failed_walk client fuel path bt rest data calls1 f hwalk
    unfold main
    rw [hg]
    simp [main_loop_append, hdone, hl]

/-- Witness of C8: scenario D; the walk of `bad` has stored `bad/a` when the
listing of `bad/b/` fails, and the run ends with the entries of `good` only
and nothing published. -/
theorem failed_request_aborts_run_witness :
    (listRecursive scenarioD 5 "bad/" "kv1"
      { KVData := [], calls := [Call.list "/v1/good/", Call.getV1 "good" "k"] }).2.KVData =
      [("bad/a", "partial")] ∧
    (main scenarioD acceptAll 5).calls =
      [Call.list "/v1/good/", Call.getV1 "good" "k", Call.list "/v1/bad/",
        Call.getV1 "bad" "a"] ++ Call.list "/v1/bad/b/" :: [] ∧
    scenarioD.fails (Call.list "/v1/bad/b/") = some "TransportError" ∧
    ([] = ([] : List Call) ∧ (main scenarioD acceptAll 5).outcome = .error (.panic "TransportError") ∧
      (main scenarioD acceptAll 5).published = ⟨[], []⟩) ∧
    ((main scenarioD acceptAll 5).SSMData = [("good/k", "v")] ∧
      (main scenarioD acceptAll 5).published = ⟨[], []⟩ ∧
      ∃ f1, (main scenarioD acceptAll 5).outcome = .error f1) :=
  ⟨by decide, by decide, by decide,
    (failed_request_aborts_run scenarioD acceptAll 5).2.1
      [Call.list "/v1/good/", Call.getV1 "good" "k", Call.list "/v1/bad/", Call.getV1 "bad" "a"]
      (Call.list "/v1/bad/b/") [] "TransportError" (by decide) (by decide),
    (failed_request_aborts_run scenarioD acceptAll 5).2.2
      [("good", "kv1")] "bad" "kv1" [] [("good/k", "v")]
      [Call.list "/v1/good/", Call.getV1 "good" "k"] (.err "TransportError")
      (by decide) (by decide) (by decide)⟩



/-! ## What a walk stores -/

theorem store_shape (client : Client) (subPath : String) (secret : Option KVSecret)
    (kv : GoMap String) :
    (listRecursive.store client subPath secret kv).2 = kv ∨
      ∃ value, (listRecursive.store client subPath secret kv).2 = kv.set subPath value := by
  rcases secret with _ | ⟨_ | data⟩
  · exact Or.inl rfl
  · exact Or.inl rfl
  · simp only [listRecursive.store]
    split
    · split
      · exact Or.inr ⟨_, rfl⟩
      · exact Or.inl rfl
    · split
      · exact Or.inl rfl
      · exact Or.inr ⟨_, rfl⟩

theorem store_get?_other (client : Client) (subPath : String) (secret : Option KVSecret)
    (kv : GoMap String) (k : String) (hk : subPath ≠ k) :
    (listRecursive.store client subPath secret kv).2.get? k = kv.get? k := by
  rcases store_shape client subPath secret kv with h | ⟨value, h⟩
  · rw [h]
  · rw [h, GoMap.get?_set]
    simp [hk]

theorem store_keys (client : Client) (subPath : String) (secret : Option KVSecret)
    (kv : GoMap String) (k : String)
    (hk : k ∈ (listRecursive.store client subPath secret kv).2.keys) :
    k = subPath ∨ k ∈ kv.keys := by
  rcases store_shape client subPath secret kv with h | ⟨value, h⟩
  · rw [h] at hk
    exact Or.inr hk
  · rw [h] at hk
    exact (GoMap.mem_keys_set kv subPath k value).1 hk

/-- A property of the map that every store below `root` keeps is kept by the
loop, given that the recursive calls keep it. -/
theorem loop_inv (client : Client) (bt root : String) (Q : GoMap String → Prop)
    (hstore : ∀ subPath secret kv, root.data <+: subPath.data →
      (readSecret client subPath bt []).1 = .ok secret → Q kv →
      Q (listRecursive.store client subPath secret kv).2)
    (recurse : String → Walk → Res Unit × Walk)
    (hrec : ∀ sub w, root.data <+: sub.data → Q w.KVData → Q (recurse sub w).2.KVData)
    (path : String) (hroot : root.data <+: path.data) (keys : List String) :
    ∀ w, Q w.KVData → Q (listRecursive.loop recurse client path bt keys w).2.KVData := by
  have hsub : ∀ key : String, root.data <+: (path ++ key).data := by
    intro key
    rw [String.data_append]
    exact hroot.trans (List.prefix_append _ _)
  induction keys with
  | nil =>
    intro w hw
    exact hw
  | cons key rest ih =>
    intro w hw
    rw [listRecursive.loop]
    cases hk : key.data.getLast? with
    | none => exact hw
    | some ch =>
      simp only
      by_cases hch : ch = '/'
      · simp only [hch, if_true]
        have h1 := hrec (path ++ key) w (hsub key) hw
        rcases hr : recurse (path ++ key) w with ⟨r1, w1⟩
        rw [hr] at h1
        cases r1 with
        | error f => exact h1
        | ok u => exact ih w1 h1
      · simp only [hch, if_false]
        rw [readSecret_calls]
        cases hr : (readSecret client (path ++ key) bt []).1 with
        | error f => exact hw
        | ok secret =>
          simp only
          have h1 := hstore (path ++ key) secret w.KVData (hsub key) hr hw
          rcases hs : listRecursive.store client (path ++ key) secret w.KVData with ⟨r2, kv⟩
          rw [hs] at h1
          cases r2 with
          | error f => exact h1
          | ok u => exact ih _ h1

theorem listRecursive_inv (client : Client) (bt root : String) (Q : GoMap String → Prop)
    (hstore : ∀ subPath secret kv, root.data <+: subPath.data →
      (readSecret client subPath bt []).1 = .ok secret → Q kv →
      Q (listRecursive.store client subPath secret kv).2)
    (fuel : Nat) :
    ∀ path w, root.data <+: path.data → Q w.KVData →
      Q (listRecursive client fuel path bt w).2.KVData := by
  induction fuel with
  | zero =>
    intro path w _ hw
    exact hw
  | succ fuel ih =>
    intro path w hroot hw
    rw [listRecursive_succ]
    cases listRecursive.url path bt with
    | none => exact hw
    | some u =>
      simp only
      cases client.RawList u with
      | error e => exact hw
      | ok keys =>
        exact loop_inv client bt root Q hstore _ (fun sub w1 hs hq => ih sub w1 hs hq) path hroot
          keys _ hw


theorem LeafAt.read {client : Client} {bt path s v : String} (h : LeafAt client bt path s v) :
    ∃ d, (readSecret client (path ++ s) bt []).1 = .ok (some { Data := some d }) ∧
      d.get? "value" = some (JVal.str v) := by
  induction h with
  | leaf path n v u keys d ch _ _ _ _ _ hread hval => exact ⟨d, hread, hval⟩
  | folder path n s v u keys _ _ _ _ _ ih =>
    obtain ⟨d, hread, hval⟩ := ih
    exact ⟨d, by rw [← String.append_assoc]; exact hread, hval⟩

/-- Once the map reads `v` at a key whose payload has the string `v` as its
`value`, no later store of the walk changes that. -/
theorem store_keeps_value (client : Client) (bt key v : String) (d : GoMap JVal)
    (hread : (readSecret client key bt []).1 = .ok (some { Data := some d }))
    (hval : d.get? "value" = some (JVal.str v)) :
    ∀ subPath secret kv, ("" : String).data <+: subPath.data →
      (readSecret client subPath bt []).1 = .ok secret → kv.get? key = some v →
      (listRecursive.store client subPath secret kv).2.get? key = some v := by
  intro subPath secret kv _ hr hkv
  by_cases hk : subPath = key
  · subst hk
    rw [hread] at hr
    cases hr
    rw [store_string client subPath d v kv hval]
    simp [GoMap.get?_set]
  · rw [store_get?_other client subPath secret kv key hk]
    exact hkv

theorem loop_cons_eq (recurse : String → Walk → Res Unit × Walk) (client : Client)
    (path bt key : String) (rest : List String) (w : Walk) :
    listRecursive.loop recurse client path bt (key :: rest) w =
      match listRecursive.loop recurse client path bt [key] w with
      | (.error f, w1) => (.error f, w1)
      | (.ok _, w1) => listRecursive.loop recurse client path bt rest w1 := by
  cases hk : key.data.getLast? with
  | none => simp [listRecursive.loop, hk]
  | some ch =>
    by_cases hch : ch = '/'
    · subst hch
      rw [loop_dir _ _ _ _ _ _ _ hk, loop_dir _ _ _ _ _ _ _ hk]
      rcases recurse (path ++ key) w with ⟨r1, w1⟩
      cases r1 <;> simp [listRecursive.loop]
    · rw [loop_leaf _ _ _ _ _ _ _ ch hk hch, loop_leaf _ _ _ _ _ _ _ ch hk hch]
      rcases readSecret client (path ++ key) bt w.calls with ⟨r1, c1⟩
      cases r1 with
      | error f => rfl
      | ok secret =>
        simp only
        rcases listRecursive.store client (path ++ key) secret w.KVData with ⟨r2, kv⟩
        cases r2 <;> simp [listRecursive.loop]

theorem loop_establish (recurse : String → Walk → Res Unit × Walk) (client : Client)
    (path bt : String) (P : GoMap String → Prop)
    (hkeep : ∀ keys w, P w.KVData →
      P (listRecursive.loop recurse client path bt keys w).2.KVData)
    (n : String)
    (hn : ∀ w, (listRecursive.loop recurse client path bt [n] w).1 = .ok () →
      P (listRecursive.loop recurse client path bt [n] w).2.KVData)
    (keys : List String) :
    ∀ w, n ∈ keys → (listRecursive.loop recurse client path bt keys w).1 = .ok () →
      P (listRecursive.loop recurse client path bt keys w).2.KVData := by
  induction keys with
  | nil =>
    intro w hmem
    simp at hmem
  | cons key rest ih =>
    intro w hmem hok
    rw [loop_cons_eq] at hok ⊢
    have hn1 := hn w
    have hk1 := hkeep [key] w
    rcases hr : listRecursive.loop recurse client path bt [key] w with ⟨r1, w1⟩
    rw [hr] at hok hk1
    cases r1 with
    | error f => simp at hok
    | ok u =>
      simp only at hok ⊢
      rcases List.mem_cons.1 hmem with h | h
      · subst h
        rw [hr] at hn1
        exact hkeep rest w1 (hn1 rfl)
      · exact ih w1 h hok

/-- A walk that returns normally has stored, for every leaf with a string
`value` the server shows below `path`, that string under `path` followed by
the leaf's sub-path. -/
theorem leaf_recorded (client : Client) (bt path s v : String)
    (h : LeafAt client bt path s v) :
    ∀ fuel w, (listRecursive client fuel path bt w).1 = .ok () →
      (listRecursive client fuel path bt w).2.KVData.get? (path ++ s) = some v := by
  induction h with
  | leaf path n v u keys d ch hu hl hmem hk hch hread hval =>
    intro fuel w hok
    cases fuel with
    | zero => simp [listRecursive] at hok
    | succ fuel =>
      rw [listRecursive_succ] at hok ⊢
      simp only [hu, hl] at hok ⊢
      refine loop_establish _ client path bt (fun kv => kv.get? (path ++ n) = some v) ?_ n ?_
        keys _ hmem hok
      · intro keys1 w1 hw1
        exact loop_inv client bt "" _
          (store_keeps_value client bt (path ++ n) v d hread hval) _
          (fun sub w2 hs hq => listRecursive_inv client bt "" _
            (store_keeps_value client bt (path ++ n) v d hread hval) fuel sub w2 hs hq)
          path List.nil_prefix keys1 w1 hw1
      · intro w1 _
        rw [loop_leaf _ client path bt n [] w1 ch hk hch, readSecret_calls, hread]
        simp only [store_string client (path ++ n) d v w1.KVData hval, listRecursive.loop]
        simp [GoMap.get?_set]
  | folder path n s v u keys hu hl hmem hk hleaf ih =>
    intro fuel w hok
    obtain ⟨d, hread, hval⟩ := hleaf.read
    cases fuel with
    | zero => simp [listRecursive] at hok
    | succ fuel =>
      rw [listRecursive_succ] at hok ⊢
      simp only [hu, hl] at hok ⊢
      rw [← String.append_assoc]
      refine loop_establish _ client path bt (fun kv => kv.get? (path ++ n ++ s) = some v) ?_ n ?_
        keys _ hmem hok
      · intro keys1 w1 hw1
        exact loop_inv client bt "" _
          (store_keeps_value client bt (path ++ n ++ s) v d hread hval) _
          (fun sub w2 hs hq => listRecursive_inv client bt "" _
            (store_keeps_value client bt (path ++ n ++ s) v d hread hval) fuel sub w2 hs hq)
          path List.nil_prefix keys1 w1 hw1
      · intro w1 hok1
        rw [loop_dir _ client path bt n [] w1 hk] at hok1 ⊢
        have hi := ih fuel w1
        rcases hr : listRecursive client fuel (path ++ n) bt w1 with ⟨r1, w2⟩
        rw [hr] at hok1 hi
        cases r1 with
        | error f => simp at hok1
        | ok u => exact hi rfl

/-- Every key a walk adds to the map starts with the walked path. -/
theorem walk_keys_prefixed (client : Client) (bt path : String) (fuel : Nat) (calls : List Call)
    (k : String)
    (hk : k ∈ (listRecursive client fuel path bt { KVData := [], calls := calls }).2.KVData.keys) :
    path.data <+: k.data := by
  refine listRecursive_inv client bt path (fun kv => ∀ k, k ∈ kv.keys → path.data <+: k.data)
    ?_ fuel path _ (List.prefix_refl _) ?_ k hk
  · intro subPath secret kv hsub _ hq k1 hk1
    rcases store_keys client subPath secret kv k1 hk1 with h | h
    · rw [h]
      exact hsub
    · exact hq k1 h
  · intro k1 hk1
    simp [GoMap.keys] at hk1


/-! ## More fuel changes nothing once a walk has ended -/

theorem loop_more_fuel (r1 r2 : String → Walk → Res Unit × Walk) (client : Client)
    (path bt : String)
    (hr : ∀ sub w, (r1 sub w).1 ≠ .error .diverge → r2 sub w = r1 sub w)
    (keys : List String) :
    ∀ w, (listRecursive.loop r1 client path bt keys w).1 ≠ .error .diverge →
      listRecursive.loop r2 client path bt keys w = listRecursive.loop r1 client path bt keys w := by
  induction keys with
  | nil =>
    intro w _
    rfl
  | cons key rest ih =>
    intro w hnd
    cases hk : key.data.getLast? with
    | none => simp [listRecursive.loop, hk]
    | some ch =>
      by_cases hch : ch = '/'
      · subst hch
        rw [loop_dir _ _ _ _ _ _ _ hk] at hnd ⊢
        rw [loop_dir _ _ _ _ _ _ _ hk]
        have h1 := hr (path ++ key) w
        rcases hq : r1 (path ++ key) w with ⟨q, w1⟩
        rw [hq] at hnd h1
        cases q with
        | error f =>
          simp only at hnd
          rw [h1 hnd]
        | ok u =>
          rw [h1 (by simp)]
          exact ih w1 hnd
      · rw [loop_leaf _ _ _ _ _ _ _ ch hk hch] at hnd ⊢
        rw [loop_leaf _ _ _ _ _ _ _ ch hk hch]
        rcases hq : readSecret client (path ++ key) bt w.calls with ⟨q, c1⟩
        rw [hq] at hnd
        cases q with
        | error f => rfl
        | ok secret =>
          simp only at hnd ⊢
          rcases hs : listRecursive.store client (path ++ key) secret w.KVData with ⟨q2, kv⟩
          rw [hs] at hnd
          cases q2 with
          | error f => rfl
          | ok u => exact ih _ hnd

theorem listRecursive_succ_fuel (client : Client) (bt : String) (fuel : Nat) :
    ∀ path w, (listRecursive client fuel path bt w).1 ≠ .error .diverge →
      listRecursive client (fuel + 1) path bt w = listRecursive client fuel path bt w := by
  induction fuel with
  | zero =>
    intro path w h
    simp [listRecursive] at h
  | succ fuel ih =>
    intro path w h
    rw [listRecursive_succ] at h
    rw [listRecursive_succ client (fuel + 1), listRecursive_succ client fuel]
    cases hu : listRecursive.url path bt with
    | none => rfl
    | some u =>
      rw [hu] at h
      simp only at h ⊢
      cases hl : client.RawList u with
      | error e => rfl
      | ok keys =>
        rw [hl] at h
        simp only at h ⊢
        exact loop_more_fuel _ _ client path bt (fun sub w1 hd => ih sub w1 hd) keys _ h

theorem listRecursive_more_fuel (client : Client) (bt : String) (fuel fuel1 : Nat)
    (hle : fuel ≤ fuel1) (path : String) (w : Walk)
    (h : (listRecursive client fuel path bt w).1 ≠ .error .diverge) :
    listRecursive client fuel1 path bt w = listRecursive client fuel path bt w := by
  induction hle with
  | refl => rfl
  | step _ ih =>
    rw [listRecursive_succ_fuel client bt _ path w (by rw [ih]; exact h), ih]

theorem main_loop_more_fuel (client : Client) (fuel fuel1 : Nat) (hle : fuel ≤ fuel1)
    (mounts : GoMap String) :
    ∀ SSMData calls, (main.loop client fuel mounts SSMData calls).1 = .ok () →
      main.loop client fuel1 mounts SSMData calls = main.loop client fuel mounts SSMData calls := by
  induction mounts with
  | nil =>
    intro SSMData calls _
    rfl
  | cons e rest ih =>
    intro SSMData calls hok
    obtain ⟨m, bt⟩ := e
    rw [main_loop_cons] at hok ⊢
    rw [main_loop_cons]
    have hmore := listRecursive_more_fuel client bt fuel fuel1 hle (m ++ "/")
      { KVData := [], calls := calls }
    rcases hr : listRecursive client fuel (m ++ "/") bt { KVData := [], calls := calls }
      with ⟨r1, w1⟩
    rw [hr] at hok hmore
    cases r1 with
    | error f => cases f <;> simp at hok
    | ok u =>
      rw [hmore (by simp)]
      exact ih _ _ hok

theorem main_more_fuel (client : Client) (svc : SSM) (fuel fuel1 : Nat) (hle : fuel ≤ fuel1)
    (hok : (main client svc fuel).outcome = .ok ()) :
    main client svc fuel1 = main client svc fuel := by
  unfold main at hok ⊢
  cases hg : GetMounts client with
  | error f => rfl
  | ok mounts =>
    rw [hg] at hok
    simp only at hok ⊢
    have hmore := main_loop_more_fuel client fuel fuel1 hle mounts [] []
    rcases hr : main.loop client fuel mounts [] [] with ⟨r1, data, calls⟩
    rw [hr] at hok hmore
    cases r1 with
    | error f => simp at hok
    | ok u => rw [hmore rfl]


/-! ## What a run records -/

theorem GetMounts.fold_WF (secret : GoMap MountOutput) :
    ∀ (acc m : GoMap String), acc.WF → secret.foldl GetMounts.step (some acc) = some m →
      m.WF := by
  induction secret with
  | nil =>
    intro acc m hacc h
    cases h
    exact hacc
  | cons e t ih =>
    intro acc m hacc h
    rw [List.foldl_cons, GetMounts.step_some] at h
    refine ih _ m ?_ h
    cases specVariant e.2 with
    | none => exact hacc
    | some bt => exact GoMap.WF_set acc e.1 bt hacc

theorem GetMounts_WF (client : Client) (mounts : GoMap String)
    (h : GetMounts client = .ok mounts) : mounts.WF := by
  unfold GetMounts at h
  cases hl : client.ListMounts with
  | error e =>
    rw [hl] at h
    cases h
  | ok secret =>
    rw [hl] at h
    simp only at h
    cases hf : secret.foldl GetMounts.step (some []) with
    | none =>
      rw [hf] at h
      cases h
    | some m =>
      rw [hf] at h
      cases h
      exact GetMounts.fold_WF secret [] _ (by simp [GoMap.WF, GoMap.keys]) hf

/-- A key of the global map stays a key through the loop over the mounts. -/
theorem main_loop_keeps_key (client : Client) (fuel : Nat) (k : String) (mounts : GoMap String) :
    ∀ SSMData calls, k ∈ SSMData.keys →
      k ∈ (main.loop client fuel mounts SSMData calls).2.1.keys := by
  induction mounts with
  | nil =>
    intro SSMData calls h
    exact h
  | cons e rest ih =>
    intro SSMData calls h
    obtain ⟨m, bt⟩ := e
    rw [main_loop_cons]
    rcases listRecursive client fuel (m ++ "/") bt { KVData := [], calls := calls } with ⟨r1, w1⟩
    cases r1 with
    | error f => cases f <;> exact h
    | ok u => exact ih _ _ ((mem_keys_mergeMap _ _ k).2 (Or.inr h))

/-- A value of the global map stays through the loop over mounts none of whose
walked paths is a prefix of its key. -/
theorem main_loop_keeps_value (client : Client) (fuel : Nat) (k x : String)
    (mounts : GoMap String) :
    ∀ SSMData calls, SSMData.get? k = some x →
      (∀ m2 bt2, (m2, bt2) ∈ mounts → ¬ (m2 ++ "/").data <+: k.data) →
      (main.loop client fuel mounts SSMData calls).2.1.get? k = some x := by
  induction mounts with
  | nil =>
    intro SSMData calls h _
    exact h
  | cons e rest ih =>
    intro SSMData calls h hfree
    obtain ⟨m, bt⟩ := e
    rw [main_loop_cons]
    have hpre := walk_keys_prefixed client bt (m ++ "/") fuel calls k
    rcases hr : listRecursive client fuel (m ++ "/") bt { KVData := [], calls := calls }
      with ⟨r1, w1⟩
    rw [hr] at hpre
    cases r1 with
    | error f => cases f <;> exact h
    | ok u =>
      refine ih _ _ ?_ (fun m2 bt2 hm => hfree m2 bt2 (List.mem_cons_of_mem _ hm))
      rw [get?_mergeMap_of_not_mem _ _ k
        (fun hk => hfree m bt (List.mem_cons_self _ _) (hpre hk))]
      exact h

theorem main_loop_records (client : Client) (fuel : Nat) (m bt s v : String)
    (hleaf : LeafAt client bt (m ++ "/") s v) (mounts : GoMap String) :
    ∀ SSMData calls, (m, bt) ∈ mounts → mounts.WF →
      (main.loop client fuel mounts SSMData calls).1 = .ok () →
      m ++ "/" ++ s ∈ (main.loop client fuel mounts SSMData calls).2.1.keys ∧
      ((∀ m2 bt2, (m2, bt2) ∈ mounts → m2 ≠ m → ¬ (m2 ++ "/").data <+: (m ++ "/" ++ s).data) →
        (main.loop client fuel mounts SSMData calls).2.1.get? (m ++ "/" ++ s) = some v) := by
  induction mounts with
  | nil =>
    intro SSMData calls hmem
    simp at hmem
  | cons e rest ih =>
    intro SSMData calls hmem hwf hok
    obtain ⟨m1, bt1⟩ := e
    simp only [GoMap.WF, GoMap.keys, List.map_cons, List.nodup_cons] at hwf
    rw [main_loop_cons] at hok ⊢
    have hrec := leaf_recorded client bt (m ++ "/") s v hleaf fuel
      { KVData := [], calls := calls }
    rcases List.mem_cons.1 hmem with h | h
    · cases h
      rcases hr : listRecursive client fuel (m ++ "/") bt { KVData := [], calls := calls }
        with ⟨r1, w1⟩
      rw [hr] at hok hrec
      cases r1 with
      | error f => cases f <;> simp at hok
      | ok u =>
        simp only at hok ⊢
        have hrec := hrec rfl
        simp only at hrec
        have hwf1 : GoMap.WF w1.KVData := by
          have h2 := listRecursive_inv client bt "" GoMap.WF
            (fun subPath secret kv _ _ hq => by
              rcases store_shape client subPath secret kv with h1 | ⟨value, h1⟩
              · rw [h1]
                exact hq
              · rw [h1]
                exact GoMap.WF_set kv subPath value hq)
            fuel (m ++ "/") { KVData := [], calls := calls } List.nil_prefix
            (by simp [GoMap.WF, GoMap.keys])
          rw [hr] at h2
          exact h2
        have hv : (mergeMap w1.KVData SSMData).get? (m ++ "/" ++ s) = some v := by
          obtain ⟨x, hx, hgx⟩ := get?_mergeMap_of_mem w1.KVData SSMData (m ++ "/" ++ s)
            ((GoMap.mem_keys_iff_get? _ _).2 ⟨v, hrec⟩)
          have h1 := GoMap.get?_of_mem _ hwf1 _ _ hx
          rw [hrec] at h1
          cases h1
          exact hgx
        refine ⟨main_loop_keeps_key client fuel _ rest _ _
          ((GoMap.mem_keys_iff_get? _ _).2 ⟨v, hv⟩), fun hfree => ?_⟩
        refine main_loop_keeps_value client fuel _ v rest _ _ hv (fun m2 bt2 hm2 => ?_)
        refine hfree m2 bt2 (List.mem_cons_of_mem _ hm2) ?_
        rintro rfl
        exact hwf.1 (List.mem_map_of_mem Prod.fst hm2)
    · rcases hr : listRecursive client fuel (m1 ++ "/") bt1 { KVData := [], calls := calls }
        with ⟨r1, w1⟩
      rw [hr] at hok
      cases r1 with
      | error f => cases f <;> simp at hok
      | ok u =>
        simp only at hok ⊢
        obtain ⟨hk, hval⟩ := ih _ _ h hwf.2 hok
        exact ⟨hk, fun hfree =>
          hval (fun m2 bt2 hm2 hne => hfree m2 bt2 (List.mem_cons_of_mem _ hm2) hne)⟩


/-- C6, amended: for a discovered mount `m` whose identifier does not end in
`/` and a leaf the server shows at sub-path `s` below `m` followed by `/`,
holding a payload with the string `v` as its `value`: when the run ends
normally with some fuel, then with that or any larger fuel it ends normally,
the global map has the key `m`, one `/`, then `s`, and that entry is
published under the name `/` followed by the key; the recorded value is `v`
when no other mount's walked path is a prefix of the key.  The walked path
`m` followed by `/` does not end in two separators, so exactly one `/` stands
between `m` and `s`. -/
theorem run_records_mount_sep_subpath (client : Client) (svc : SSM) (fuel : Nat)
    (mounts : GoMap String) (m bt s v : String)
    (hm : GetMounts client = .ok mounts) (hmem : (m, bt) ∈ mounts)
    (hsep : m.data.getLast? ≠ some '/')
    (hleaf : LeafAt client bt (m ++ "/") s v)
    (hok : (main client svc fuel).outcome = .ok ()) :
    (∀ p : String, m ++ "/" ≠ p ++ "//") ∧
    ∀ fuel1, fuel ≤ fuel1 →
      (main client svc fuel1).outcome = .ok () ∧
      ∃ v1, (main client svc fuel1).SSMData.get? (m ++ "/" ++ s) = some v1 ∧
        { Name := "/" ++ (m ++ "/" ++ s), Value := v1, Type_ := "String" } ∈
          (main client svc fuel1).published.puts ∧
        ((∀ m2 bt2, (m2, bt2) ∈ mounts → m2 ≠ m →
            ¬ (m2 ++ "/").data <+: (m ++ "/" ++ s).data) → v1 = v) := by
  refine ⟨fun p hp => hsep ?_, ?_⟩
  · have h1 : m.data ++ ['/'] = (p.data ++ ['/']) ++ ['/'] := by
      have h2 := congrArg String.data hp
      simpa using h2
    have h3 : m.data = p.data ++ ['/'] := List.append_cancel_right h1
    rw [h3]
    simp
  intro fuel1 hle
  rw [main_more_fuel client svc fuel fuel1 hle hok]
  refine ⟨hok, ?_⟩
  have hrec := main_loop_records client fuel m bt s v hleaf mounts [] [] hmem
    (GetMounts_WF client mounts hm)
  unfold main at hok ⊢
  rw [hm] at hok ⊢
  simp only at hok ⊢
  rcases hr : main.loop client fuel mounts [] [] with ⟨r1, data, calls⟩
  rw [hr] at hok hrec
  cases r1 with
  | error f => simp at hok
  | ok u =>
    simp only at hrec ⊢
    obtain ⟨hk, hval⟩ := hrec trivial
    obtain ⟨v1, hv1⟩ := (GoMap.mem_keys_iff_get? data _).1 hk
    refine ⟨v1, hv1, ?_, fun hfree => ?_⟩
    · rw [writeToParamStore_puts]
      exact List.mem_map.2 ⟨_, GoMap.mem_of_get? data _ v1 hv1, rfl⟩
    · have h2 := hval hfree
      rw [hv1] at h2
      exact Option.some.inj h2

theorem scenarioA_hosts : Hosts scenarioA "kv1" ("secret/" ++ "/") treeA :=
  ⟨⟨"/v1/secret//", rfl, rfl⟩,
    by decide, ⟨"/v1/secret//app/", rfl, rfl⟩,
    ⟨⟨'b', by decide, by decide⟩, rfl, Or.inl rfl, trivial⟩, trivial⟩

theorem scenarioAPlain_leaf : LeafAt scenarioAPlain "kv1" ("secret" ++ "/") ("app/" ++ "db") "pw123" :=
  LeafAt.folder ("secret" ++ "/") "app/" "db" "pw123" "/v1/secret/" ["app/"] rfl rfl
    (by decide) (by decide)
    (LeafAt.leaf ("secret" ++ "/" ++ "app/") "db" "pw123" "/v1/secret/app/" ["db"]
      [("value", JVal.str "pw123")] 'b' rfl rfl (by decide) (by decide) (by decide) rfl rfl)

theorem scenarioA_leaf : LeafAt scenarioA "kv1" ("secret/" ++ "/") ("app/" ++ "db") "pw123" :=
  LeafAt.folder ("secret/" ++ "/") "app/" "db" "pw123" "/v1/secret//" ["app/"] rfl rfl
    (by decide) (by decide)
    (LeafAt.leaf ("secret/" ++ "/" ++ "app/") "db" "pw123" "/v1/secret//app/" ["db"]
      [("value", JVal.str "pw123")] 'b' rfl rfl (by decide) (by decide) (by decide) rfl rfl)

theorem mixed_leaf : LeafAt mixed "kv1" ("m" ++ "/") "a" "x" :=
  LeafAt.leaf ("m" ++ "/") "a" "x" "/v1/m/" ["a", "b"] [("value", JVal.str "x")] 'a' rfl rfl
    (by decide) (by decide) (by decide) rfl rfl

/-- Witness of C6, amended: scenario A with the mount reported as `secret`:
the leaf `app/db` is recorded as `secret/app/db` with value `pw123` and
published as `/secret/app/db`; and the mount `m` whose second leaf holds a
number as its `value`: the run ends normally and records `m/a`. -/
theorem run_records_mount_sep_subpath_witness :
    (main scenarioAPlain acceptAll 5).SSMData = [("secret/app/db", "pw123")] ∧
    (main scenarioAPlain acceptAll 5).published.puts =
      [{ Name := "/secret/app/db", Value := "pw123", Type_ := "String" }] ∧
    (∀ p : String, "secret" ++ "/" ≠ p ++ "//") ∧
    ((main scenarioAPlain acceptAll 5).outcome = .ok () ∧
      ∃ v1, (main scenarioAPlain acceptAll 5).SSMData.get? ("secret" ++ "/" ++ ("app/" ++ "db")) =
          some v1 ∧
        { Name := "/" ++ ("secret" ++ "/" ++ ("app/" ++ "db")), Value := v1, Type_ := "String" } ∈
          (main scenarioAPlain acceptAll 5).published.puts ∧
        ((∀ m2 bt2, (m2, bt2) ∈ ([("secret", "kv1")] : GoMap String) → m2 ≠ "secret" →
            ¬ (m2 ++ "/").data <+: ("secret" ++ "/" ++ ("app/" ++ "db")).data) →
          v1 = "pw123")) ∧
    ((main mixed acceptAll 3).outcome = .ok () ∧
      ∃ v1, (main mixed acceptAll 3).SSMData.get? ("m" ++ "/" ++ "a") = some v1 ∧
        { Name := "/" ++ ("m" ++ "/" ++ "a"), Value := v1, Type_ := "String" } ∈
          (main mixed acceptAll 3).published.puts ∧
        ((∀ m2 bt2, (m2, bt2) ∈ ([("m", "kv1")] : GoMap String) → m2 ≠ "m" →
            ¬ (m2 ++ "/").data <+: ("m" ++ "/" ++ "a").data) →
          v1 = "x")) :=
  ⟨by decide, by decide,
    (run_records_mount_sep_subpath scenarioAPlain acceptAll 2 [("secret", "kv1")] "secret" "kv1"
      ("app/" ++ "db") "pw123" (by decide) (by decide) (by decide) scenarioAPlain_leaf
      (by decide)).1,
    (run_records_mount_sep_subpath scenarioAPlain acceptAll 2 [("secret", "kv1")] "secret" "kv1"
      ("app/" ++ "db") "pw123" (by decide) (by decide) (by decide) scenarioAPlain_leaf
      (by decide)).2 5 (by decide),
    (run_records_mount_sep_subpath mixed acceptAll 1 [("m", "kv1")] "m" "kv1" "a" "x"
      (by decide) (by decide) (by decide) mixed_leaf (by decide)).2 3 (by decide)⟩

/-- C6, as stated, fails: with the mount reported as `secret/` (scenario A)
and the leaf at sub-path `app/db` below it, the run records the key
`secret//app/db`, not `secret/app/db`, and publishes it as `/secret//app/db`. -/
theorem scenarioA_key_has_two_separators :
    GetMounts scenarioA = .ok [("secret/", "kv1")] ∧
    Hosts scenarioA "kv1" ("secret/" ++ "/") treeA ∧
    treeA.leaves = [("app/db", "pw123")] ∧
    LeafAt scenarioA "kv1" ("secret/" ++ "/") ("app/" ++ "db") "pw123" ∧
    (main scenarioA acceptAll 5).outcome = .ok () ∧
    (main scenarioA acceptAll 5).SSMData = [("secret//app/db", "pw123")] ∧
    (main scenarioA acceptAll 5).SSMData.get? ("secret/" ++ "app/db") = none ∧
    (main scenarioA acceptAll 5).published.puts =
      [{ Name := "/secret//app/db", Value := "pw123", Type_ := "String" }] ∧
    ¬ ({ Name := "/secret/app/db", Value := "pw123", Type_ := "String" } ∈
      (main scenarioA acceptAll 5).published.puts) :=
  ⟨by decide, scenarioA_hosts, by decide, scenarioA_leaf, by decide, by decide, by decide,
    by decide, by decide⟩

end VaultToSsm
